import Mathlib

/-!
Shallow embedding of `DirectXTK12/Src/LinearAllocator.cpp`.

The source manages fixed-size upload pages in three intrusive doubly-linked
lists (`m_unusedPages`, `m_usedPages`, `m_pendingPages`).  We embed each
intrusive list as a Lean `List LinearAllocatorPage`, head first, so that
`LinkPage` (push at head) is `::`, `LinkPageChain` (append the existing list
after the chain and make the chain the new head) is `++`, and `UnlinkPage`
removes the node from whichever list currently holds it.  Page objects are
identified by a ghost field `mId` standing for the C++ pointer identity; the
bookkeeping fields (`mPendingFence`, `mOffset`, `mSize`, `mRefCount`) are the
ones the allocator logic reads and writes.  `size_t`/`UINT64` values are
modelled as `Nat` (the allocator's arithmetic stays far below 2^64 on every
path guarded by its own checks, so wraparound is not modelled).

The GPU fence of a page is polled through an environment
`completed : Nat → Nat` mapping a page's identity to the fence's current
completed value at the moment `RetirePendingPages` polls it.
-/

/-- One upload page.  Mirrors the bookkeeping fields of `LinearAllocatorPage`;
`mId` is a ghost identity standing for the C++ object address. -/
structure LinearAllocatorPage where
  mId : Nat
  mPendingFence : Nat
  mOffset : Nat
  mSize : Nat
  mRefCount : Nat
deriving DecidableEq, Repr

/-- `AlignOffset` from the anonymous namespace: for a (power-of-two) positive
alignment, round `offset` up to the next multiple of `alignment`; alignment 0
means no change.  For a power of two `a`, the source's
`(offset + a - 1) & ~(a - 1)` clears the low bits of `offset + a - 1`, which
is exactly subtracting the remainder mod `a`. -/
def AlignOffset (offset alignment : Nat) : Nat :=
  if 0 < alignment then
    (offset + alignment - 1) - (offset + alignment - 1) % alignment
  else
    offset

/-- Errors surfaced by the allocator (§7 of the design): the `_DEBUG` throws
in `Suballocate` and `FindPageForAlloc`, and the out-of-memory paths. -/
inductive AllocError where
  | InvalidArgument
  | OutOfMemory
  | CapacityExceeded
deriving DecidableEq, Repr

/-- `LinearAllocatorPage::Suballocate`: align the cursor, check capacity
(the `_DEBUG` throw), then advance the cursor and return the aligned
offset. -/
def LinearAllocatorPage.Suballocate (page : LinearAllocatorPage)
    (size alignment : Nat) : Except AllocError (Nat × LinearAllocatorPage) :=
  let offset := AlignOffset page.mOffset alignment
  if offset + size > page.mSize then
    .error .CapacityExceeded
  else
    .ok (offset, { page with mOffset := offset + size })

/-- The allocator state: the three page lists (head first), the page size
`m_increment`, and the counters.  `m_nextId` is ghost state producing fresh
page identities for `GetNewPage` (`new LinearAllocatorPage` in the source). -/
structure LinearAllocator where
  m_pendingPages : List LinearAllocatorPage
  m_usedPages : List LinearAllocatorPage
  m_unusedPages : List LinearAllocatorPage
  m_increment : Nat
  m_totalPages : Nat
  m_numPending : Nat
  m_nextId : Nat
deriving DecidableEq, Repr

/-- The constructor with `preallocateBytes = 0`: all lists empty, counters
zero.  (Preallocation is the constructor's loop of `GetNewPage` calls and is
modelled by `Op.newPage` steps below.) -/
def LinearAllocator.init (pageSize : Nat) : LinearAllocator :=
  { m_pendingPages := []
    m_usedPages := []
    m_unusedPages := []
    m_increment := pageSize
    m_totalPages := 0
    m_numPending := 0
    m_nextId := 0 }

/-- Remove the page with identity `i` from a list: `UnlinkPage`'s pointer
surgery on the one node holding `i`.  (Identities in the lists are kept
distinct by the allocator's invariant, so the filter removes that node.) -/
def removeId (i : Nat) (l : List LinearAllocatorPage) : List LinearAllocatorPage :=
  l.filter (fun p => p.mId ≠ i)

/-- `LinearAllocator::UnlinkPage`: detach `page` from whichever of the three
tracked lists currently holds it. -/
def LinearAllocator.UnlinkPage (a : LinearAllocator) (page : LinearAllocatorPage) :
    LinearAllocator :=
  { a with
    m_pendingPages := removeId page.mId a.m_pendingPages
    m_usedPages := removeId page.mId a.m_usedPages
    m_unusedPages := removeId page.mId a.m_unusedPages }

/-- A fresh page as built by `GetNewPage`: `LinearAllocatorPage()` zeroes
offset, fence value and refcount, then `page->mSize = m_increment`. -/
def newPage (i increment : Nat) : LinearAllocatorPage :=
  { mId := i, mPendingFence := 0, mOffset := 0, mSize := increment, mRefCount := 0 }

/-- `LinearAllocator::GetNewPage`: if the device can create the resource and
fence (`ok`), build a fresh page, push it at the head of `m_unusedPages` and
bump `m_totalPages`; otherwise return `none` (the source's `nullptr`). -/
def LinearAllocator.GetNewPage (a : LinearAllocator) (ok : Bool) :
    Option (LinearAllocatorPage × LinearAllocator) :=
  if ok then
    let page := newPage a.m_nextId a.m_increment
    some (page,
      { a with
        m_unusedPages := page :: a.m_unusedPages
        m_totalPages := a.m_totalPages + 1
        m_nextId := a.m_nextId + 1 })
  else
    none

/-- `LinearAllocator::GetCleanPageForAlloc`: take the head of `m_unusedPages`
if any, else create a page via `GetNewPage`; then `UnlinkPage` it and
`LinkPage` it at the head of `m_usedPages`. -/
def LinearAllocator.GetCleanPageForAlloc (a : LinearAllocator) (ok : Bool) :
    Option (LinearAllocatorPage × LinearAllocator) :=
  let acquired : Option (LinearAllocatorPage × LinearAllocator) :=
    match a.m_unusedPages with
    | page :: _ => some (page, a)
    | [] => a.GetNewPage ok
  match acquired with
  | none => none
  | some (page, a1) =>
    let a2 := a1.UnlinkPage page
    some (page, { a2 with m_usedPages := page :: a2.m_usedPages })

/-- The private `LinearAllocator::FindPageForAlloc(list, sizeBytes, alignment)`:
linear scan of `list`, returning the first page whose aligned cursor leaves
room for `sizeBytes` within `m_increment`. -/
def findFit (increment sizeBytes alignment : Nat) :
    List LinearAllocatorPage → Option LinearAllocatorPage
  | [] => none
  | page :: rest =>
    if AlignOffset page.mOffset alignment + sizeBytes ≤ increment then
      some page
    else
      findFit increment sizeBytes alignment rest

/-- `LinearAllocator::GetPageForAlloc`: fast path for a whole-page request,
else first fit in `m_usedPages`, else a clean page. -/
def LinearAllocator.GetPageForAlloc (a : LinearAllocator) (ok : Bool)
    (sizeBytes alignment : Nat) : Option (LinearAllocatorPage × LinearAllocator) :=
  if sizeBytes = a.m_increment ∧ (alignment = 0 ∨ alignment = a.m_increment) then
    a.GetCleanPageForAlloc ok
  else
    match findFit a.m_increment sizeBytes alignment a.m_usedPages with
    | some page => some (page, a)
    | none => a.GetCleanPageForAlloc ok

/-- The public `LinearAllocator::FindPageForAlloc(size, alignment)`: the
`_DEBUG` argument checks (size above the increment, alignment above the
increment, zero size), then `GetPageForAlloc`, turning its `nullptr` into the
out-of-memory error. -/
def LinearAllocator.FindPageForAlloc (a : LinearAllocator) (ok : Bool)
    (size alignment : Nat) : Except AllocError (LinearAllocatorPage × LinearAllocator) :=
  if size > a.m_increment then .error .InvalidArgument
  else if alignment > a.m_increment then .error .InvalidArgument
  else if size = 0 then .error .InvalidArgument
  else
    match a.GetPageForAlloc ok size alignment with
    | none => .error .OutOfMemory
    | some (page, a1) => .ok (page, a1)

/-- `commandQueue->Signal(page->mFence.Get(), ++page->mPendingFence)`: the
page's recorded fence value is pre-incremented when it is fenced. -/
def fencePage (p : LinearAllocatorPage) : LinearAllocatorPage :=
  { p with mPendingFence := p.mPendingFence + 1 }

/-- The partitioning loop of `FenceCommittedPages`: walk `m_usedPages` head
to tail, pushing each zero-refcount page (fenced) at the head of the `ready`
accumulator and each other page at the head of `unready`. -/
def fenceLoop : List LinearAllocatorPage → List LinearAllocatorPage →
    List LinearAllocatorPage → List LinearAllocatorPage × List LinearAllocatorPage
  | [], ready, unready => (ready, unready)
  | page :: rest, ready, unready =>
    if page.mRefCount = 0 then
      fenceLoop rest (fencePage page :: ready) unready
    else
      fenceLoop rest ready (page :: unready)

/-- `LinearAllocator::FenceCommittedPages`: partition `m_usedPages` into
fenced ready pages and unready pages; the unready chain becomes the new
`m_usedPages` and the ready chain is spliced (`LinkPageChain`) onto the head
of `m_pendingPages`. -/
def LinearAllocator.FenceCommittedPages (a : LinearAllocator) : LinearAllocator :=
  match a.m_usedPages with
  | [] => a
  | _ =>
    let (ready, unready) := fenceLoop a.m_usedPages [] []
    { a with
      m_usedPages := unready
      m_pendingPages := ready ++ a.m_pendingPages
      m_numPending := a.m_numPending + ready.length }

/-- `page->mFence->GetCompletedValue() >= page->mPendingFence`, with the
polled completed value supplied by the environment `completed`. -/
def fencePassed (completed : Nat → Nat) (p : LinearAllocatorPage) : Bool :=
  decide (p.mPendingFence ≤ completed p.mId)

/-- `LinearAllocator::ReleasePage`: drop the pending counter, unlink the page
from its list, link it at the head of `m_unusedPages`, and reset its cursor
to 0. -/
def LinearAllocator.ReleasePage (a : LinearAllocator) (page : LinearAllocatorPage) :
    LinearAllocator :=
  let a1 := { a with m_numPending := a.m_numPending - 1 }
  let a2 := a1.UnlinkPage page
  { a2 with m_unusedPages := { page with mOffset := 0 } :: a2.m_unusedPages }

/-- The traversal of `RetirePendingPages`: the loop walks the snapshot of the
pending chain (each node's `pNextPage` is read before a possible release),
releasing every page whose fence has passed. -/
def retireLoop (completed : Nat → Nat) :
    List LinearAllocatorPage → LinearAllocator → LinearAllocator
  | [], a => a
  | page :: rest, a =>
    if fencePassed completed page then
      retireLoop completed rest (a.ReleasePage page)
    else
      retireLoop completed rest a

/-- `LinearAllocator::RetirePendingPages`: poll every pending page once and
release the ones whose fence has passed. -/
def LinearAllocator.RetirePendingPages (a : LinearAllocator) (completed : Nat → Nat) :
    LinearAllocator :=
  retireLoop completed a.m_pendingPages a

/-- `LinearAllocator::Shrink`: free every unused page (`FreePages` drops
`m_totalPages` once per freed page) and clear the list. -/
def LinearAllocator.Shrink (a : LinearAllocator) : LinearAllocator :=
  { a with
    m_unusedPages := []
    m_totalPages := a.m_totalPages - a.m_unusedPages.length }

/-- The destructor's drain loop `while (m_pendingPages != nullptr)
RetirePendingPages();`.  Each iteration polls the fences through the next
environment in `polls`; `none` means the supplied poll results never let the
pending list drain (the destructor is still blocked spinning). -/
def drainLoop : List (Nat → Nat) → LinearAllocator → Option LinearAllocator
  | polls, a =>
    if a.m_pendingPages.isEmpty then some a
    else
      match polls with
      | [] => none
      | completed :: rest => drainLoop rest (a.RetirePendingPages completed)

/-- `LinearAllocator::~LinearAllocator`: drain the pending list by repeated
retirement, then `FreePages(m_unusedPages); FreePages(m_usedPages)` and null
the members.  Returns the final state, or `none` while still blocked. -/
def LinearAllocator.destruct (a : LinearAllocator) (polls : List (Nat → Nat)) :
    Option LinearAllocator :=
  match drainLoop polls a with
  | none => none
  | some a1 =>
    some { a1 with
      m_unusedPages := []
      m_usedPages := []
      m_pendingPages := []
      m_totalPages := a1.m_totalPages - a1.m_unusedPages.length - a1.m_usedPages.length
      m_increment := 0 }

/-! ## The allocator as a transition system

`Op` collects the calls a client can make on a live allocator.  `findPage`
models a call to the public `FindPageForAlloc`; `suballoc`, `addRef` and
`release` model what the caller does with the returned page (which at that
point sits in `m_usedPages`).  `newPage` models the constructor's
preallocation loop, which calls `GetNewPage` directly. -/

/-- Reset of a page's cursor, as done by `ReleasePage` (`page->mOffset = 0`). -/
def resetPage (p : LinearAllocatorPage) : LinearAllocatorPage :=
  { p with mOffset := 0 }

/-- The caller performing `page->Suballocate(size, alignment)` through the
pointer returned by `FindPageForAlloc`: the page with identity `i` sits in
`m_usedPages` and its cursor is advanced in place.  (A `_DEBUG` capacity
throw leaves the page unchanged.) -/
def subAllocInUsed (i size alignment : Nat) (a : LinearAllocator) : LinearAllocator :=
  { a with
    m_usedPages := a.m_usedPages.map (fun p =>
      if p.mId = i then
        match p.Suballocate size alignment with
        | .ok (_, p1) => p1
        | .error _ => p
      else p) }

/-- Modelled from the spec: `LinearAllocatorPage::AddRef` lives in the header
(not under `src/`); the spec (§3, §9) describes `outstandingReferenceCount`
as a count of external holders, incremented by the collaborator that hands
out references to a page in use. -/
def addRefInUsed (i : Nat) (a : LinearAllocator) : LinearAllocator :=
  { a with
    m_usedPages := a.m_usedPages.map (fun p =>
      if p.mId = i then { p with mRefCount := p.mRefCount + 1 } else p) }

/-- Modelled from the spec: `LinearAllocatorPage::Release` lives in the header
(not under `src/`); the collaborator drops one outstanding reference of a
page in use (`outstandingReferenceCount ≥ 0` per the spec's invariants). -/
def releaseRefInUsed (i : Nat) (a : LinearAllocator) : LinearAllocator :=
  { a with
    m_usedPages := a.m_usedPages.map (fun p =>
      if p.mId = i then { p with mRefCount := p.mRefCount - 1 } else p) }

/-- One client-visible step on a live allocator. -/
inductive Op where
  | newPage (ok : Bool)
  | findPage (ok : Bool) (size alignment : Nat)
  | suballoc (i size alignment : Nat)
  | addRef (i : Nat)
  | release (i : Nat)
  | commit
  | retire (completed : Nat → Nat)
  | shrink

/-- Effect of one step on the allocator state.  Failing calls (`nullptr`
from `GetNewPage`, a thrown error from `FindPageForAlloc`) leave the state
unchanged. -/
def applyOp : Op → LinearAllocator → LinearAllocator
  | .newPage ok, a =>
    match a.GetNewPage ok with
    | some (_, a1) => a1
    | none => a
  | .findPage ok size alignment, a =>
    match a.FindPageForAlloc ok size alignment with
    | .ok (_, a1) => a1
    | .error _ => a
  | .suballoc i size alignment, a => subAllocInUsed i size alignment a
  | .addRef i, a => addRefInUsed i a
  | .release i, a => releaseRefInUsed i a
  | .commit, a => a.FenceCommittedPages
  | .retire completed, a => a.RetirePendingPages completed
  | .shrink, a => a.Shrink

/-- Number of pages `GetCleanPageForAlloc` would create: one exactly when
`m_unusedPages` is empty and the device backend succeeds. -/
def createsClean (a : LinearAllocator) (ok : Bool) : Nat :=
  match a.m_unusedPages with
  | _ :: _ => 0
  | [] => if ok then 1 else 0

/-- Pages created (successful `GetNewPage` calls) by one step. -/
def pagesCreated : Op → LinearAllocator → Nat
  | .newPage ok, _ => if ok then 1 else 0
  | .findPage ok size alignment, a =>
    if size > a.m_increment ∨ alignment > a.m_increment ∨ size = 0 then 0
    else if size = a.m_increment ∧ (alignment = 0 ∨ alignment = a.m_increment) then
      createsClean a ok
    else
      match findFit a.m_increment size alignment a.m_usedPages with
      | some _ => 0
      | none => createsClean a ok
  | _, _ => 0

/-- Pages destroyed (`FreePages`, which deletes each page) by one step. -/
def pagesDestroyed : Op → LinearAllocator → Nat
  | .shrink, a => a.m_unusedPages.length
  | _, _ => 0

/-- `Reached a c d`: state `a` is reachable from a fresh allocator, with `c`
pages created and `d` pages destroyed along the way. -/
inductive Reached : LinearAllocator → Nat → Nat → Prop where
  | init : ∀ pageSize, Reached (LinearAllocator.init pageSize) 0 0
  | step : ∀ {a c d} (op : Op), Reached a c d →
      Reached (applyOp op a) (c + pagesCreated op a) (d + pagesDestroyed op a)

/-- The page identities of a list, in order. -/
def ids (l : List LinearAllocatorPage) : List Nat :=
  l.map (fun p => p.mId)

/-- All pages tracked by the allocator, across the three lists. -/
def allPages (a : LinearAllocator) : List LinearAllocatorPage :=
  a.m_unusedPages ++ a.m_usedPages ++ a.m_pendingPages

/-- The allocator's state invariant: page identities are pairwise distinct
across the three lists (each page is in exactly one list); unused pages have
cursor 0; pending pages carry a nonzero fence value; the three list lengths
sum to `m_totalPages`; and all identities are below the ghost counter. -/
def ArenaInv (a : LinearAllocator) : Prop :=
  (ids (allPages a)).Nodup
  ∧ (∀ p ∈ a.m_unusedPages, p.mOffset = 0)
  ∧ (∀ p ∈ a.m_pendingPages, p.mPendingFence ≠ 0)
  ∧ a.m_unusedPages.length + a.m_usedPages.length + a.m_pendingPages.length = a.m_totalPages
  ∧ (∀ p ∈ allPages a, p.mId < a.m_nextId)

instance (a : LinearAllocator) : Decidable (ArenaInv a) := by
  unfold ArenaInv allPages ids
  infer_instance

example : ArenaInv (LinearAllocator.init 65536) := by decide

/-! ## Basic lemmas about the embedded operations -/

theorem AlignOffset_zero (offset : Nat) : AlignOffset offset 0 = offset := rfl

theorem AlignOffset_le (offset alignment : Nat) :
    offset ≤ AlignOffset offset alignment := by
  unfold AlignOffset
  split
  · rename_i h
    have hmod := Nat.mod_lt (offset + alignment - 1) h
    omega
  · exact Nat.le_refl _

theorem AlignOffset_lt (offset alignment : Nat) (h : 0 < alignment) :
    AlignOffset offset alignment < offset + alignment := by
  unfold AlignOffset
  rw [if_pos h]
  omega

theorem AlignOffset_dvd (offset alignment : Nat) (h : 0 < alignment) :
    alignment ∣ AlignOffset offset alignment := by
  unfold AlignOffset
  rw [if_pos h]
  have hdm := Nat.div_add_mod (offset + alignment - 1) alignment
  exact ⟨(offset + alignment - 1) / alignment, by omega⟩

theorem AlignOffset_zero_left (alignment : Nat) : AlignOffset 0 alignment = 0 := by
  unfold AlignOffset
  split
  · rename_i h
    have : (0 + alignment - 1) % alignment = alignment - 1 := by
      rw [Nat.zero_add]
      exact Nat.mod_eq_of_lt (by omega)
    omega
  · rfl

theorem ids_append (l1 l2 : List LinearAllocatorPage) :
    ids (l1 ++ l2) = ids l1 ++ ids l2 := List.map_append _ _ _

theorem ids_reverse (l : List LinearAllocatorPage) :
    ids l.reverse = (ids l).reverse := List.map_reverse _ _

theorem ids_cons (p : LinearAllocatorPage) (l : List LinearAllocatorPage) :
    ids (p :: l) = p.mId :: ids l := rfl

theorem mem_ids_of_mem {p : LinearAllocatorPage} {l : List LinearAllocatorPage}
    (h : p ∈ l) : p.mId ∈ ids l := List.mem_map_of_mem _ h

theorem removeId_eq_self {i : Nat} {l : List LinearAllocatorPage}
    (h : i ∉ ids l) : removeId i l = l := by
  unfold removeId
  rw [List.filter_eq_self]
  intro p hp
  simp only [decide_eq_true_eq]
  intro hip
  exact h (hip ▸ mem_ids_of_mem hp)

theorem removeId_append (i : Nat) (l1 l2 : List LinearAllocatorPage) :
    removeId i (l1 ++ l2) = removeId i l1 ++ removeId i l2 := List.filter_append _ _

theorem removeId_cons_self (p : LinearAllocatorPage) (l : List LinearAllocatorPage) :
    removeId p.mId (p :: l) = removeId p.mId l := by
  unfold removeId
  rw [List.filter_cons_of_neg]
  simp

theorem ReleasePage_eq (a : LinearAllocator) (page : LinearAllocatorPage) :
    a.ReleasePage page =
      { a with
        m_numPending := a.m_numPending - 1
        m_pendingPages := removeId page.mId a.m_pendingPages
        m_usedPages := removeId page.mId a.m_usedPages
        m_unusedPages := resetPage page :: removeId page.mId a.m_unusedPages } := rfl

/-- Readiness test of the commit loop: `page->RefCount() == 0`. -/
def isReady (p : LinearAllocatorPage) : Bool := p.mRefCount == 0

theorem fenceLoop_eq (l ready unready : List LinearAllocatorPage) :
    fenceLoop l ready unready =
      (((l.filter isReady).map fencePage).reverse ++ ready,
        (l.filter (fun p => !isReady p)).reverse ++ unready) := by
  induction l generalizing ready unready with
  | nil => simp [fenceLoop]
  | cons p rest ih =>
    by_cases h : p.mRefCount = 0
    · simp [fenceLoop, h, ih, isReady, List.filter_cons]
    · simp [fenceLoop, h, ih, isReady, List.filter_cons]

theorem FenceCommittedPages_eq (a : LinearAllocator) :
    a.FenceCommittedPages =
      { a with
        m_usedPages := (a.m_usedPages.filter (fun p => !isReady p)).reverse
        m_pendingPages :=
          ((a.m_usedPages.filter isReady).map fencePage).reverse ++ a.m_pendingPages
        m_numPending := a.m_numPending + (a.m_usedPages.filter isReady).length } := by
  unfold LinearAllocator.FenceCommittedPages
  cases hu : a.m_usedPages with
  | nil =>
    simp only [hu, List.filter_nil, List.map_nil, List.reverse_nil, List.nil_append,
      List.length_nil, Nat.add_zero]
    rw [← hu]
  | cons p rest =>
    rw [fenceLoop_eq]
    simp [hu]

/-- Separation facts the retire traversal relies on (consequences of the
allocator invariant): pending identities are pairwise distinct and do not
occur in the other two lists. -/
def PendingSeparated (a : LinearAllocator) : Prop :=
  (ids a.m_pendingPages).Nodup
  ∧ (∀ q ∈ a.m_pendingPages, q.mId ∉ ids a.m_usedPages)
  ∧ (∀ q ∈ a.m_pendingPages, q.mId ∉ ids a.m_unusedPages)

theorem retireLoop_eq (completed : Nat → Nat) (l : List LinearAllocatorPage) :
    ∀ (pre : List LinearAllocatorPage) (a : LinearAllocator),
      PendingSeparated a → a.m_pendingPages = pre ++ l →
      retireLoop completed l a =
        { a with
          m_pendingPages := pre ++ l.filter (fun p => !fencePassed completed p)
          m_unusedPages :=
            ((l.filter (fencePassed completed)).map resetPage).reverse ++ a.m_unusedPages
          m_numPending := a.m_numPending - (l.filter (fencePassed completed)).length } := by
  induction l with
  | nil =>
    intro pre a _ hpend
    rw [List.append_nil] at hpend
    simp only [retireLoop, List.filter_nil, List.map_nil, List.reverse_nil,
      List.nil_append, List.length_nil, Nat.sub_zero, List.append_nil, ← hpend]
  | cons p rest ih =>
    intro pre a hsep hpend
    obtain ⟨hnd, hus, hun⟩ := hsep
    have hpmem : p ∈ a.m_pendingPages := by
      rw [hpend]; exact List.mem_append_right _ (List.mem_cons_self _ _)
    have hndsplit : (ids pre).Nodup ∧ (ids (p :: rest)).Nodup ∧
        (ids pre).Disjoint (ids (p :: rest)) := by
      have h := hnd
      rw [hpend, ids_append, List.nodup_append] at h
      exact h
    have hpre : p.mId ∉ ids pre := fun hmem =>
      hndsplit.2.2 hmem (List.mem_cons_self _ _)
    have hrest : p.mId ∉ ids rest := (List.nodup_cons.mp hndsplit.2.1).1
    have ha' : a.ReleasePage p =
        { a with
          m_numPending := a.m_numPending - 1
          m_pendingPages := pre ++ rest
          m_unusedPages := resetPage p :: a.m_unusedPages } := by
      rw [ReleasePage_eq]
      rw [hpend, removeId_append, removeId_cons_self,
        removeId_eq_self hpre, removeId_eq_self hrest,
        removeId_eq_self (hus p hpmem), removeId_eq_self (hun p hpmem)]
    by_cases hf : fencePassed completed p
    · have hsub : List.Sublist (ids (pre ++ rest)) (ids (pre ++ p :: rest)) := by
        refine List.Sublist.map _ (List.Sublist.append_left ?_ pre)
        exact List.sublist_cons_self p rest
      have hmem0 : ∀ q ∈ pre ++ rest, q ∈ a.m_pendingPages := by
        intro q hq
        rw [hpend]
        rcases List.mem_append.mp hq with h | h
        · exact List.mem_append_left _ h
        · exact List.mem_append_right _ (List.mem_cons_of_mem _ h)
      have hsep' : PendingSeparated (a.ReleasePage p) := by
        rw [ha']
        refine ⟨?_, ?_, ?_⟩
        · exact hsub.nodup (by rw [hpend] at hnd; exact hnd)
        · intro q hq
          exact hus q (hmem0 q hq)
        · intro q hq
          have hne : q.mId ≠ p.mId := by
            intro he
            rcases List.mem_append.mp hq with h | h
            · exact hpre (he ▸ mem_ids_of_mem h)
            · exact hrest (he ▸ mem_ids_of_mem h)
          simp only [ids_cons, List.mem_cons]
          push_neg
          refine ⟨hne, hun q (hmem0 q hq)⟩
      have hpend' : (a.ReleasePage p).m_pendingPages = pre ++ rest := by
        rw [ha']
      simp only [retireLoop, if_pos hf]
      rw [ih pre _ hsep' hpend', ha']
      simp only [List.filter_cons, hf, Bool.not_true, if_pos, ite_true, ite_false,
        Bool.false_eq_true, List.map_cons, List.reverse_cons, List.append_assoc,
        List.singleton_append, List.length_cons, Nat.sub_sub, Nat.add_comm]
    · simp only [retireLoop, if_neg hf]
      rw [ih (pre ++ [p]) a ⟨hnd, hus, hun⟩ (by rw [hpend]; simp)]
      have hb : fencePassed completed p = false := by
        simpa using hf
      simp only [List.filter_cons, hb, Bool.not_false, ite_true, ite_false,
        Bool.false_eq_true, List.append_assoc, List.singleton_append]

theorem RetirePendingPages_eq (a : LinearAllocator) (completed : Nat → Nat)
    (hsep : PendingSeparated a) :
    a.RetirePendingPages completed =
      { a with
        m_pendingPages := a.m_pendingPages.filter (fun p => !fencePassed completed p)
        m_unusedPages :=
          ((a.m_pendingPages.filter (fencePassed completed)).map resetPage).reverse
            ++ a.m_unusedPages
        m_numPending :=
          a.m_numPending - (a.m_pendingPages.filter (fencePassed completed)).length } := by
  unfold LinearAllocator.RetirePendingPages
  rw [retireLoop_eq completed a.m_pendingPages [] a hsep rfl]
  simp

theorem nodup3_iff (u v w : List Nat) :
    (u ++ v ++ w).Nodup ↔
      u.Nodup ∧ v.Nodup ∧ w.Nodup
      ∧ (∀ x ∈ u, x ∉ v) ∧ (∀ x ∈ u, x ∉ w) ∧ (∀ x ∈ v, x ∉ w) := by
  rw [List.nodup_append, List.nodup_append]
  unfold List.Disjoint
  constructor
  · rintro ⟨⟨h1, h2, h3⟩, h4, h5⟩
    refine ⟨h1, h2, h4, ?_, ?_, ?_⟩
    · intro x hx hv; exact h3 hx hv
    · intro x hx hw; exact h5 (List.mem_append_left _ hx) hw
    · intro x hx hw; exact h5 (List.mem_append_right _ hx) hw
  · rintro ⟨h1, h2, h3, h4, h5, h6⟩
    refine ⟨⟨h1, h2, ?_⟩, h3, ?_⟩
    · intro x hx hv
      exact h4 x hx hv
    intro x hx hw
    rcases List.mem_append.mp hx with h | h
    · exact h5 x h hw
    · exact h6 x h hw

/-- The invariant, decomposed list by list. -/
theorem arenaInv_iff (a : LinearAllocator) :
    ArenaInv a ↔
      ((ids a.m_unusedPages).Nodup ∧ (ids a.m_usedPages).Nodup
        ∧ (ids a.m_pendingPages).Nodup
        ∧ (∀ x ∈ ids a.m_unusedPages, x ∉ ids a.m_usedPages)
        ∧ (∀ x ∈ ids a.m_unusedPages, x ∉ ids a.m_pendingPages)
        ∧ (∀ x ∈ ids a.m_usedPages, x ∉ ids a.m_pendingPages))
      ∧ (∀ p ∈ a.m_unusedPages, p.mOffset = 0)
      ∧ (∀ p ∈ a.m_pendingPages, p.mPendingFence ≠ 0)
      ∧ a.m_unusedPages.length + a.m_usedPages.length + a.m_pendingPages.length
          = a.m_totalPages
      ∧ (∀ p ∈ a.m_unusedPages, p.mId < a.m_nextId)
      ∧ (∀ p ∈ a.m_usedPages, p.mId < a.m_nextId)
      ∧ (∀ p ∈ a.m_pendingPages, p.mId < a.m_nextId) := by
  unfold ArenaInv allPages
  rw [ids_append, ids_append, nodup3_iff]
  constructor
  · rintro ⟨h1, h2, h3, h4, h5⟩
    refine ⟨h1, h2, h3, h4, ?_, ?_, ?_⟩
    · intro p hp; exact h5 p (List.mem_append_left _ (List.mem_append_left _ hp))
    · intro p hp; exact h5 p (List.mem_append_left _ (List.mem_append_right _ hp))
    · intro p hp; exact h5 p (List.mem_append_right _ hp)
  · rintro ⟨h1, h2, h3, h4, h5, h6, h7⟩
    refine ⟨h1, h2, h3, h4, ?_⟩
    intro p hp
    rcases List.mem_append.mp hp with h | h
    · rcases List.mem_append.mp h with h0 | h0
      · exact h5 p h0
      · exact h6 p h0
    · exact h7 p h

theorem ArenaInv.pendingSeparated {a : LinearAllocator} (h : ArenaInv a) :
    PendingSeparated a := by
  rw [arenaInv_iff] at h
  obtain ⟨⟨-, -, h3, -, h5, h6⟩, -⟩ := h
  refine ⟨h3, ?_, ?_⟩
  · intro q hq hmem
    exact h6 q.mId hmem (mem_ids_of_mem hq)
  · intro q hq hmem
    exact h5 q.mId hmem (mem_ids_of_mem hq)

@[simp] theorem newPage_mId (i inc : Nat) : (newPage i inc).mId = i := rfl

@[simp] theorem newPage_mOffset (i inc : Nat) : (newPage i inc).mOffset = 0 := rfl

@[simp] theorem newPage_mPendingFence (i inc : Nat) : (newPage i inc).mPendingFence = 0 := rfl

@[simp] theorem newPage_mRefCount (i inc : Nat) : (newPage i inc).mRefCount = 0 := rfl

@[simp] theorem newPage_mSize (i inc : Nat) : (newPage i inc).mSize = inc := rfl

@[simp] theorem resetPage_mId (p : LinearAllocatorPage) : (resetPage p).mId = p.mId := rfl

@[simp] theorem resetPage_mOffset (p : LinearAllocatorPage) : (resetPage p).mOffset = 0 := rfl

@[simp] theorem fencePage_mId (p : LinearAllocatorPage) : (fencePage p).mId = p.mId := rfl

@[simp] theorem fencePage_mPendingFence (p : LinearAllocatorPage) :
    (fencePage p).mPendingFence = p.mPendingFence + 1 := rfl

theorem mem_ids {x : Nat} {l : List LinearAllocatorPage} :
    x ∈ ids l ↔ ∃ p ∈ l, p.mId = x := List.mem_map

theorem ids_map {f : LinearAllocatorPage → LinearAllocatorPage}
    (hid : ∀ p, (f p).mId = p.mId) (l : List LinearAllocatorPage) :
    ids (l.map f) = ids l := by
  unfold ids
  rw [List.map_map]
  exact List.map_congr_left (fun p _ => hid p)

theorem eq_of_mem_ids_nodup {l : List LinearAllocatorPage}
    {p q : LinearAllocatorPage} (hnd : (ids l).Nodup) (hp : p ∈ l) (hq : q ∈ l)
    (he : p.mId = q.mId) : p = q :=
  List.inj_on_of_nodup_map hnd hp hq he

theorem ids_sublist {l1 l2 : List LinearAllocatorPage} (h : List.Sublist l1 l2) :
    List.Sublist (ids l1) (ids l2) := List.Sublist.map _ h

theorem filter_lengths (p : LinearAllocatorPage → Bool) (l : List LinearAllocatorPage) :
    (l.filter p).length + (l.filter (fun x => !p x)).length = l.length := by
  have hperm := List.filter_append_perm p l
  have := hperm.length_eq
  rw [List.length_append] at this
  exact this

/-! ## Preservation of the invariant by every operation -/

theorem inv_newPage {a : LinearAllocator} (h : ArenaInv a) (ok : Bool) :
    ArenaInv (applyOp (.newPage ok) a) := by
  cases ok with
  | false => simpa only [applyOp, LinearAllocator.GetNewPage, if_neg, Bool.false_eq_true,
      not_false_iff] using h
  | true =>
    simp only [applyOp, LinearAllocator.GetNewPage, if_pos]
    rw [arenaInv_iff] at h ⊢
    obtain ⟨⟨h1, h2, h3, h4, h5, h6⟩, hoff, hfen, hlen, hb1, hb2, hb3⟩ := h
    refine ⟨⟨?_, h2, h3, ?_, ?_, h6⟩, ?_, hfen, ?_, ?_, ?_, ?_⟩
    · show (ids (newPage a.m_nextId a.m_increment :: a.m_unusedPages)).Nodup
      rw [ids_cons, List.nodup_cons]
      refine ⟨?_, h1⟩
      intro hmem
      obtain ⟨p, hp, hpe⟩ := mem_ids.mp hmem
      rw [newPage_mId] at hpe
      exact absurd hpe (Nat.ne_of_lt (hb1 p hp))
    · intro x hx
      rw [ids_cons, List.mem_cons] at hx
      rcases hx with hx | hx
      · intro hmem
        obtain ⟨p, hp, hpe⟩ := mem_ids.mp hmem
        subst hx
        rw [newPage_mId] at hpe
        exact absurd hpe (Nat.ne_of_lt (hb2 p hp))
      · exact h4 x hx
    · intro x hx
      rw [ids_cons, List.mem_cons] at hx
      rcases hx with hx | hx
      · intro hmem
        obtain ⟨p, hp, hpe⟩ := mem_ids.mp hmem
        subst hx
        rw [newPage_mId] at hpe
        exact absurd hpe (Nat.ne_of_lt (hb3 p hp))
      · exact h5 x hx
    · intro p hp
      rcases List.mem_cons.mp hp with hp | hp
      · subst hp; rfl
      · exact hoff p hp
    · simp only [List.length_cons]
      omega
    · intro p hp
      rcases List.mem_cons.mp hp with hp | hp
      · subst hp; exact Nat.lt_succ_self _
      · exact Nat.lt_succ_of_lt (hb1 p hp)
    · intro p hp
      exact Nat.lt_succ_of_lt (hb2 p hp)
    · intro p hp
      exact Nat.lt_succ_of_lt (hb3 p hp)

theorem GetCleanPageForAlloc_cons {a : LinearAllocator} {p : LinearAllocatorPage}
    {rest : List LinearAllocatorPage} (h : ArenaInv a)
    (hu : a.m_unusedPages = p :: rest) (ok : Bool) :
    a.GetCleanPageForAlloc ok =
      some (p, { a with m_unusedPages := rest, m_usedPages := p :: a.m_usedPages }) := by
  rw [arenaInv_iff] at h
  obtain ⟨⟨h1, -, -, h4, h5, -⟩, -⟩ := h
  have hpmem : p ∈ a.m_unusedPages := by rw [hu]; exact List.mem_cons_self _ _
  have hrest : p.mId ∉ ids rest := by
    rw [hu, ids_cons, List.nodup_cons] at h1
    exact h1.1
  unfold LinearAllocator.GetCleanPageForAlloc
  rw [hu]
  simp only [LinearAllocator.UnlinkPage]
  rw [removeId_eq_self (fun hmem => h5 p.mId (mem_ids_of_mem hpmem) hmem),
    removeId_eq_self (fun hmem => h4 p.mId (mem_ids_of_mem hpmem) hmem), hu,
    removeId_cons_self, removeId_eq_self hrest]

theorem GetCleanPageForAlloc_nil_ok {a : LinearAllocator} (h : ArenaInv a)
    (hu : a.m_unusedPages = []) :
    a.GetCleanPageForAlloc true =
      some (newPage a.m_nextId a.m_increment,
        { a with
          m_unusedPages := []
          m_usedPages := newPage a.m_nextId a.m_increment :: a.m_usedPages
          m_totalPages := a.m_totalPages + 1
          m_nextId := a.m_nextId + 1 }) := by
  rw [arenaInv_iff] at h
  obtain ⟨-, -, -, -, -, hb2, hb3⟩ := h
  have hnotused : a.m_nextId ∉ ids a.m_usedPages := by
    intro hmem
    obtain ⟨q, hq, hqe⟩ := mem_ids.mp hmem
    exact absurd hqe (Nat.ne_of_lt (hb2 q hq))
  have hnotpend : a.m_nextId ∉ ids a.m_pendingPages := by
    intro hmem
    obtain ⟨q, hq, hqe⟩ := mem_ids.mp hmem
    exact absurd hqe (Nat.ne_of_lt (hb3 q hq))
  unfold LinearAllocator.GetCleanPageForAlloc LinearAllocator.GetNewPage
  rw [hu]
  simp only [if_pos, LinearAllocator.UnlinkPage]
  rw [removeId_eq_self (by rw [newPage_mId]; exact hnotpend),
    removeId_eq_self (by rw [newPage_mId]; exact hnotused),
    removeId_cons_self]
  rfl

theorem GetCleanPageForAlloc_nil_fail {a : LinearAllocator}
    (hu : a.m_unusedPages = []) : a.GetCleanPageForAlloc false = none := by
  unfold LinearAllocator.GetCleanPageForAlloc LinearAllocator.GetNewPage
  rw [hu]
  simp

theorem inv_cleanPage {a a1 : LinearAllocator} {p : LinearAllocatorPage} {ok : Bool}
    (h : ArenaInv a) (hres : a.GetCleanPageForAlloc ok = some (p, a1)) : ArenaInv a1 := by
  cases hu : a.m_unusedPages with
  | cons q rest =>
    rw [GetCleanPageForAlloc_cons h hu ok] at hres
    obtain ⟨he1, he2⟩ := Prod.mk.injEq _ _ _ _ ▸ Option.some.injEq _ _ ▸ hres
    subst he1
    rw [← he2]
    rw [arenaInv_iff] at h ⊢
    obtain ⟨⟨h1, h2, h3, h4, h5, h6⟩, hoff, hfen, hlen, hb1, hb2, hb3⟩ := h
    have hqmem : q ∈ a.m_unusedPages := by rw [hu]; exact List.mem_cons_self _ _
    have hqrest : q.mId ∉ ids rest := by
      rw [hu, ids_cons, List.nodup_cons] at h1
      exact h1.1
    have hrest_sub : ∀ x ∈ ids rest, x ∈ ids a.m_unusedPages := by
      intro x hx
      rw [hu, ids_cons]
      exact List.mem_cons_of_mem _ hx
    refine ⟨⟨?_, ?_, h3, ?_, ?_, ?_⟩, ?_, hfen, ?_, ?_, ?_, hb3⟩
    · rw [hu, ids_cons, List.nodup_cons] at h1
      exact h1.2
    · rw [ids_cons, List.nodup_cons]
      exact ⟨h4 q.mId (mem_ids_of_mem hqmem), h2⟩
    · intro x hx
      rw [ids_cons, List.mem_cons]
      push_neg
      refine ⟨?_, h4 x (hrest_sub x hx)⟩
      intro he
      exact hqrest (he ▸ hx)
    · intro x hx
      exact h5 x (hrest_sub x hx)
    · intro x hx
      rw [ids_cons, List.mem_cons] at hx
      rcases hx with hx | hx
      · subst hx
        exact h5 q.mId (mem_ids_of_mem hqmem)
      · exact h6 x hx
    · intro r hr
      exact hoff r (by rw [hu]; exact List.mem_cons_of_mem _ hr)
    · rw [hu] at hlen
      simp only [List.length_cons] at hlen ⊢
      omega
    · intro r hr
      exact hb1 r (by rw [hu]; exact List.mem_cons_of_mem _ hr)
    · intro r hr
      rcases List.mem_cons.mp hr with hr | hr
      · subst hr
        exact hb1 r hqmem
      · exact hb2 r hr
  | nil =>
    cases ok with
    | false =>
      rw [GetCleanPageForAlloc_nil_fail hu] at hres
      exact absurd hres (by simp)
    | true =>
      rw [GetCleanPageForAlloc_nil_ok h hu] at hres
      obtain ⟨he1, he2⟩ := Prod.mk.injEq _ _ _ _ ▸ Option.some.injEq _ _ ▸ hres
      rw [← he2]
      rw [arenaInv_iff] at h ⊢
      obtain ⟨⟨h1, h2, h3, h4, h5, h6⟩, hoff, hfen, hlen, hb1, hb2, hb3⟩ := h
      refine ⟨⟨List.nodup_nil, ?_, h3, ?_, ?_, ?_⟩, ?_, hfen, ?_, ?_, ?_, ?_⟩
      · rw [ids_cons, List.nodup_cons, newPage_mId]
        refine ⟨?_, h2⟩
        intro hmem
        obtain ⟨r, hr, hre⟩ := mem_ids.mp hmem
        exact absurd hre (Nat.ne_of_lt (hb2 r hr))
      · intro x hx
        exact absurd hx (List.not_mem_nil x)
      · intro x hx
        exact absurd hx (List.not_mem_nil x)
      · intro x hx
        rw [ids_cons, List.mem_cons, newPage_mId] at hx
        rcases hx with hx | hx
        · subst hx
          intro hmem
          obtain ⟨r, hr, hre⟩ := mem_ids.mp hmem
          exact absurd hre (Nat.ne_of_lt (hb3 r hr))
        · exact h6 x hx
      · intro r hr
        exact absurd hr (List.not_mem_nil r)
      · rw [hu] at hlen
        simp only [List.length_nil, List.length_cons] at hlen ⊢
        omega
      · intro r hr
        exact absurd hr (List.not_mem_nil r)
      · intro r hr
        rcases List.mem_cons.mp hr with hr | hr
        · subst hr
          rw [newPage_mId]
          exact Nat.lt_succ_self _
        · exact Nat.lt_succ_of_lt (hb2 r hr)
      · intro r hr
        exact Nat.lt_succ_of_lt (hb3 r hr)

theorem inv_GetPageForAlloc {a a1 : LinearAllocator} {p : LinearAllocatorPage}
    {ok : Bool} {s al : Nat} (h : ArenaInv a)
    (hres : a.GetPageForAlloc ok s al = some (p, a1)) : ArenaInv a1 := by
  unfold LinearAllocator.GetPageForAlloc at hres
  split at hres
  · exact inv_cleanPage h hres
  · split at hres
    · obtain ⟨-, he2⟩ := Prod.mk.injEq _ _ _ _ ▸ Option.some.injEq _ _ ▸ hres
      rw [← he2]
      exact h
    · exact inv_cleanPage h hres

theorem inv_FindPageForAlloc {a a1 : LinearAllocator} {p : LinearAllocatorPage}
    {ok : Bool} {s al : Nat} (h : ArenaInv a)
    (hres : a.FindPageForAlloc ok s al = .ok (p, a1)) : ArenaInv a1 := by
  unfold LinearAllocator.FindPageForAlloc at hres
  split at hres
  · exact absurd hres (by simp)
  · split at hres
    · exact absurd hres (by simp)
    · split at hres
      · exact absurd hres (by simp)
      · split at hres
        · exact absurd hres (by simp)
        · rename_i page a2 heq
          obtain ⟨he1, he2⟩ := Prod.mk.injEq _ _ _ _ ▸ Except.ok.injEq _ _ ▸ hres
          rw [← he2]
          exact inv_GetPageForAlloc h heq

theorem inv_mapUsed {a : LinearAllocator} {f : LinearAllocatorPage → LinearAllocatorPage}
    (hid : ∀ p, (f p).mId = p.mId) (h : ArenaInv a) :
    ArenaInv { a with m_usedPages := a.m_usedPages.map f } := by
  rw [arenaInv_iff] at h ⊢
  obtain ⟨⟨h1, h2, h3, h4, h5, h6⟩, hoff, hfen, hlen, hb1, hb2, hb3⟩ := h
  rw [show ids (a.m_usedPages.map f) = ids a.m_usedPages from ids_map hid _]
  refine ⟨⟨h1, h2, h3, h4, h5, h6⟩, hoff, hfen, ?_, hb1, ?_, hb3⟩
  · simp only [List.length_map]
    exact hlen
  · intro p hp
    obtain ⟨q, hq, hqe⟩ := List.mem_map.mp hp
    rw [← hqe, hid q]
    exact hb2 q hq

theorem suballoc_preserves_mId (i s al : Nat) (p : LinearAllocatorPage) :
    ((fun p : LinearAllocatorPage =>
      if p.mId = i then
        match p.Suballocate s al with
        | .ok (_, p1) => p1
        | .error _ => p
      else p) p).mId = p.mId := by
  dsimp only
  split
  · split
    · rename_i fst p1 heq
      simp only [LinearAllocatorPage.Suballocate] at heq
      split at heq
      · exact absurd heq (by simp)
      · obtain ⟨-, he2⟩ := Prod.mk.injEq _ _ _ _ ▸ Except.ok.injEq _ _ ▸ heq
        rw [← he2]
    · rfl
  · rfl

theorem inv_applyOp {a : LinearAllocator} (h : ArenaInv a) (op : Op) :
    ArenaInv (applyOp op a) := by
  cases op with
  | newPage ok => exact inv_newPage h ok
  | findPage ok s al =>
    simp only [applyOp]
    cases hres : a.FindPageForAlloc ok s al with
    | ok v =>
      obtain ⟨p, a1⟩ := v
      exact inv_FindPageForAlloc h hres
    | error e => exact h
  | suballoc i s al =>
    exact inv_mapUsed (suballoc_preserves_mId i s al) h
  | addRef i =>
    refine inv_mapUsed (fun p => ?_) h
    by_cases hc : p.mId = i <;> simp [hc]
  | release i =>
    refine inv_mapUsed (fun p => ?_) h
    by_cases hc : p.mId = i <;> simp [hc]
  | shrink =>
    simp only [applyOp, LinearAllocator.Shrink]
    rw [arenaInv_iff] at h ⊢
    obtain ⟨⟨h1, h2, h3, h4, h5, h6⟩, hoff, hfen, hlen, hb1, hb2, hb3⟩ := h
    refine ⟨⟨List.nodup_nil, h2, h3, ?_, ?_, h6⟩, ?_, hfen, ?_, ?_, hb2, hb3⟩
    · intro x hx; exact absurd hx (List.not_mem_nil x)
    · intro x hx; exact absurd hx (List.not_mem_nil x)
    · intro p hp; exact absurd hp (List.not_mem_nil p)
    · simp only [List.length_nil]
      omega
    · intro p hp; exact absurd hp (List.not_mem_nil p)
  | commit =>
    rw [applyOp, FenceCommittedPages_eq]
    rw [arenaInv_iff] at h ⊢
    obtain ⟨⟨h1, h2, h3, h4, h5, h6⟩, hoff, hfen, hlen, hb1, hb2, hb3⟩ := h
    have hsubr : ∀ x ∈ ids (a.m_usedPages.filter isReady), x ∈ ids a.m_usedPages :=
      fun x hx => (ids_sublist (List.filter_sublist _)).mem hx
    have hsubu : ∀ x ∈ ids (a.m_usedPages.filter (fun p => !isReady p)),
        x ∈ ids a.m_usedPages :=
      fun x hx => (ids_sublist (List.filter_sublist _)).mem hx
    have hready_ids : ids (((a.m_usedPages.filter isReady).map fencePage).reverse)
        = (ids (a.m_usedPages.filter isReady)).reverse := by
      rw [ids_reverse, ids_map (fun p => fencePage_mId p)]
    have hunready_ids : ids ((a.m_usedPages.filter (fun p => !isReady p)).reverse)
        = (ids (a.m_usedPages.filter (fun p => !isReady p))).reverse := ids_reverse _
    refine ⟨⟨h1, ?_, ?_, ?_, ?_, ?_⟩, hoff, ?_, ?_, hb1, ?_, ?_⟩
    · rw [hunready_ids, List.nodup_reverse]
      exact ((ids_sublist (List.filter_sublist _)).nodup h2)
    · rw [ids_append, hready_ids]
      rw [List.nodup_append]
      refine ⟨List.nodup_reverse.mpr ((ids_sublist (List.filter_sublist _)).nodup h2),
        h3, ?_⟩
      intro x hx hmem
      rw [List.mem_reverse] at hx
      exact h6 x (hsubr x hx) hmem
    · intro x hx
      rw [hunready_ids, List.mem_reverse]
      intro hmem
      exact h4 x hx (hsubu x hmem)
    · intro x hx
      rw [ids_append, hready_ids, List.mem_append, List.mem_reverse]
      push_neg
      exact ⟨fun hmem => h4 x hx (hsubr x hmem), h5 x hx⟩
    · intro x hx hmem
      rw [hunready_ids, List.mem_reverse] at hx
      rw [ids_append, hready_ids, List.mem_append, List.mem_reverse] at hmem
      rcases hmem with hmem | hmem
      · obtain ⟨q, hq, hqe⟩ := mem_ids.mp hx
        obtain ⟨r, hr, hre⟩ := mem_ids.mp hmem
        have hq2 : q ∈ a.m_usedPages := (List.filter_sublist _).mem hq
        have hr2 : r ∈ a.m_usedPages := (List.filter_sublist _).mem hr
        have : q = r := eq_of_mem_ids_nodup h2 hq2 hr2 (by rw [hqe, hre])
        subst this
        have hqt := (List.mem_filter.mp hq).2
        have hrt := (List.mem_filter.mp hr).2
        simp only [Bool.not_eq_true'] at hqt
        rw [hrt] at hqt
        exact absurd hqt (by simp)
      · exact h6 x (hsubu x hx) hmem
    · intro p hp
      rcases List.mem_append.mp hp with hp | hp
      · rw [List.mem_reverse] at hp
        obtain ⟨q, hq, hqe⟩ := List.mem_map.mp hp
        rw [← hqe]
        simp
      · exact hfen p hp
    · simp only [List.length_reverse, List.length_append, List.length_map]
      have := filter_lengths isReady a.m_usedPages
      omega
    · intro p hp
      rw [List.mem_reverse] at hp
      exact hb2 p ((List.filter_sublist _).mem hp)
    · intro p hp
      rcases List.mem_append.mp hp with hp | hp
      · rw [List.mem_reverse] at hp
        obtain ⟨q, hq, hqe⟩ := List.mem_map.mp hp
        rw [← hqe, fencePage_mId]
        exact hb2 q ((List.filter_sublist _).mem hq)
      · exact hb3 p hp
  | retire completed =>
    rw [applyOp, RetirePendingPages_eq a completed h.pendingSeparated]
    rw [arenaInv_iff] at h ⊢
    obtain ⟨⟨h1, h2, h3, h4, h5, h6⟩, hoff, hfen, hlen, hb1, hb2, hb3⟩ := h
    have hsat_ids : ids (((a.m_pendingPages.filter (fencePassed completed)).map
        resetPage).reverse) = (ids (a.m_pendingPages.filter (fencePassed completed))).reverse := by
      rw [ids_reverse, ids_map (fun p => resetPage_mId p)]
    have hsubs : ∀ x ∈ ids (a.m_pendingPages.filter (fencePassed completed)),
        x ∈ ids a.m_pendingPages :=
      fun x hx => (ids_sublist (List.filter_sublist _)).mem hx
    have hsubk : ∀ x ∈ ids (a.m_pendingPages.filter (fun p => !fencePassed completed p)),
        x ∈ ids a.m_pendingPages :=
      fun x hx => (ids_sublist (List.filter_sublist _)).mem hx
    refine ⟨⟨?_, h2, ?_, ?_, ?_, ?_⟩, ?_, ?_, ?_, ?_, hb2, ?_⟩
    · rw [ids_append, hsat_ids, List.nodup_append]
      refine ⟨List.nodup_reverse.mpr ((ids_sublist (List.filter_sublist _)).nodup h3),
        h1, ?_⟩
      intro x hx hmem
      rw [List.mem_reverse] at hx
      exact h5 x hmem (hsubs x hx)
    · exact (ids_sublist (List.filter_sublist _)).nodup h3
    · intro x hx
      rw [ids_append, hsat_ids, List.mem_append, List.mem_reverse] at hx
      rcases hx with hx | hx
      · intro hmem
        exact h6 x hmem (hsubs x hx)
      · exact h4 x hx
    · intro x hx
      rw [ids_append, hsat_ids, List.mem_append, List.mem_reverse] at hx
      intro hmem
      rcases hx with hx | hx
      · obtain ⟨q, hq, hqe⟩ := mem_ids.mp hx
        obtain ⟨r, hr, hre⟩ := mem_ids.mp hmem
        have hq2 : q ∈ a.m_pendingPages := (List.filter_sublist _).mem hq
        have hr2 : r ∈ a.m_pendingPages := (List.filter_sublist _).mem hr
        have : q = r := eq_of_mem_ids_nodup h3 hq2 hr2 (by rw [hqe, hre])
        subst this
        have hqt := (List.mem_filter.mp hq).2
        have hrt := (List.mem_filter.mp hr).2
        simp only [Bool.not_eq_true'] at hrt
        rw [hqt] at hrt
        exact absurd hrt (by simp)
      · exact h5 x hx (hsubk x hmem)
    · intro x hx hmem
      exact h6 x hx (hsubk x hmem)
    · intro p hp
      rcases List.mem_append.mp hp with hp | hp
      · rw [List.mem_reverse] at hp
        obtain ⟨q, hq, hqe⟩ := List.mem_map.mp hp
        rw [← hqe]
        rfl
      · exact hoff p hp
    · intro p hp
      exact hfen p ((List.filter_sublist _).mem hp)
    · simp only [List.length_append, List.length_reverse, List.length_map]
      have := filter_lengths (fencePassed completed) a.m_pendingPages
      omega
    · intro p hp
      rcases List.mem_append.mp hp with hp | hp
      · rw [List.mem_reverse] at hp
        obtain ⟨q, hq, hqe⟩ := List.mem_map.mp hp
        rw [← hqe, resetPage_mId]
        exact hb3 q ((List.filter_sublist _).mem hq)
      · exact hb1 p hp
    · intro p hp
      exact hb3 p ((List.filter_sublist _).mem hp)

theorem createsClean_of_none {a : LinearAllocator} {ok : Bool}
    (hres : a.GetCleanPageForAlloc ok = none) : createsClean a ok = 0 := by
  unfold LinearAllocator.GetCleanPageForAlloc at hres
  unfold createsClean
  cases hu : a.m_unusedPages with
  | cons q rest => rfl
  | nil =>
    rw [hu] at hres
    cases ok with
    | true => simp [LinearAllocator.GetNewPage] at hres
    | false => rfl

theorem GetCleanPageForAlloc_total {a a1 : LinearAllocator} {p : LinearAllocatorPage}
    {ok : Bool} (hres : a.GetCleanPageForAlloc ok = some (p, a1)) :
    a1.m_totalPages = a.m_totalPages + createsClean a ok := by
  unfold LinearAllocator.GetCleanPageForAlloc at hres
  unfold createsClean
  cases hu : a.m_unusedPages with
  | cons q rest =>
    rw [hu] at hres
    obtain ⟨-, he2⟩ := Prod.mk.injEq _ _ _ _ ▸ Option.some.injEq _ _ ▸ hres
    rw [← he2]
    rfl
  | nil =>
    rw [hu] at hres
    cases ok with
    | false => simp [LinearAllocator.GetNewPage] at hres
    | true =>
      simp only [LinearAllocator.GetNewPage, if_pos] at hres
      obtain ⟨-, he2⟩ := Prod.mk.injEq _ _ _ _ ▸ Option.some.injEq _ _ ▸ hres
      rw [← he2]
      rfl

theorem totalPages_applyOp {a : LinearAllocator} (h : ArenaInv a) (op : Op) :
    (applyOp op a).m_totalPages + pagesDestroyed op a
      = a.m_totalPages + pagesCreated op a := by
  cases op with
  | newPage ok => cases ok <;> rfl
  | suballoc i s al => rfl
  | addRef i => rfl
  | release i => rfl
  | commit =>
    rw [show applyOp Op.commit a = a.FenceCommittedPages from rfl,
      FenceCommittedPages_eq]
    rfl
  | retire completed =>
    rw [show applyOp (Op.retire completed) a = a.RetirePendingPages completed from rfl,
      RetirePendingPages_eq a completed h.pendingSeparated]
    rfl
  | shrink =>
    obtain ⟨-, -, -, hlen, -⟩ := h
    simp only [applyOp, LinearAllocator.Shrink, pagesCreated, pagesDestroyed]
    omega
  | findPage ok s al =>
    simp only [applyOp, pagesCreated, pagesDestroyed]
    unfold LinearAllocator.FindPageForAlloc
    by_cases h1 : s > a.m_increment
    · rw [if_pos h1, if_pos (Or.inl h1)]
    · rw [if_neg h1]
      by_cases h2 : al > a.m_increment
      · rw [if_pos h2, if_pos (Or.inr (Or.inl h2))]
      · rw [if_neg h2]
        by_cases h3 : s = 0
        · rw [if_pos h3, if_pos (Or.inr (Or.inr h3))]
        · rw [if_neg h3, if_neg (by push_neg; exact ⟨Nat.le_of_not_lt h1,
            Nat.le_of_not_lt h2, h3⟩)]
          unfold LinearAllocator.GetPageForAlloc
          by_cases h4 : s = a.m_increment ∧ (al = 0 ∨ al = a.m_increment)
          · rw [if_pos h4, if_pos h4]
            cases hres : a.GetCleanPageForAlloc ok with
            | some v =>
              obtain ⟨p, a1⟩ := v
              dsimp only
              rw [GetCleanPageForAlloc_total hres]
              omega
            | none =>
              dsimp only
              rw [createsClean_of_none hres]
          · rw [if_neg h4, if_neg h4]
            cases hfit : findFit a.m_increment s al a.m_usedPages with
            | some p => rfl
            | none =>
              cases hres : a.GetCleanPageForAlloc ok with
              | some v =>
                obtain ⟨p, a1⟩ := v
                dsimp only
                rw [GetCleanPageForAlloc_total hres]
                omega
              | none =>
                dsimp only
                rw [createsClean_of_none hres]

theorem reached_inv_total {a : LinearAllocator} {c d : Nat} (h : Reached a c d) :
    ArenaInv a ∧ a.m_totalPages + d = c := by
  induction h with
  | init ps =>
    refine ⟨⟨List.nodup_nil, ?_, ?_, rfl, ?_⟩, rfl⟩
    · intro p hp; exact absurd hp (List.not_mem_nil p)
    · intro p hp; exact absurd hp (List.not_mem_nil p)
    · intro p hp; exact absurd hp (List.not_mem_nil p)
  | step op hr ih =>
    obtain ⟨hinv, htot⟩ := ih
    refine ⟨inv_applyOp hinv op, ?_⟩
    have := totalPages_applyOp hinv op
    omega

theorem reached_inv {a : LinearAllocator} {c d : Nat} (h : Reached a c d) :
    ArenaInv a := (reached_inv_total h).1

/-! ## The claims -/

/-- C3: for every page and every (size, alignment) pair with alignment zero or
a power of two, `Suballocate` aligns the cursor up to the alignment (0 = no
constraint), fails with CapacityExceeded when the aligned offset plus size
exceeds the page capacity, and otherwise returns the aligned offset and
advances the cursor to exactly that offset plus the size, leaving every other
field of the page unchanged. -/
theorem claim_C3 (page : LinearAllocatorPage) (size alignment : Nat)
    (halign : alignment = 0 ∨ ∃ k, alignment = 2 ^ k) :
    (alignment = 0 → AlignOffset page.mOffset alignment = page.mOffset)
    ∧ (0 < alignment →
        page.mOffset ≤ AlignOffset page.mOffset alignment
        ∧ alignment ∣ AlignOffset page.mOffset alignment
        ∧ AlignOffset page.mOffset alignment < page.mOffset + alignment)
    ∧ (AlignOffset page.mOffset alignment + size > page.mSize →
        page.Suballocate size alignment = .error .CapacityExceeded)
    ∧ (AlignOffset page.mOffset alignment + size ≤ page.mSize →
        page.Suballocate size alignment =
          .ok (AlignOffset page.mOffset alignment,
            { page with mOffset := AlignOffset page.mOffset alignment + size })) := by
  refine ⟨?_, ?_, ?_, ?_⟩
  · intro h0
    rw [h0, AlignOffset_zero]
  · intro hpos
    exact ⟨AlignOffset_le _ _, AlignOffset_dvd _ _ hpos, AlignOffset_lt _ _ hpos⟩
  · intro hover
    unfold LinearAllocatorPage.Suballocate
    rw [if_pos hover]
  · intro hfit
    unfold LinearAllocatorPage.Suballocate
    rw [if_neg (Nat.not_lt.mpr hfit)]

theorem claim_C3_witness :
    (LinearAllocatorPage.Suballocate ⟨0, 0, 5, 100, 0⟩ 10 4 =
      .ok (8, ⟨0, 0, 18, 100, 0⟩))
    ∧ (LinearAllocatorPage.Suballocate ⟨0, 0, 95, 100, 0⟩ 10 4 =
      .error .CapacityExceeded) := by
  constructor
  · have h := (claim_C3 ⟨0, 0, 5, 100, 0⟩ 10 4 (Or.inr ⟨2, rfl⟩)).2.2.2
    rw [h (by decide)]
    rfl
  · have h := (claim_C3 ⟨0, 0, 95, 100, 0⟩ 10 4 (Or.inr ⟨2, rfl⟩)).2.2.1
    exact h (by decide)

/-- C2: `FenceCommittedPages` partitions the used list in one pass: every
used page with `mRefCount = 0` gets `mPendingFence` bumped to a strictly
greater value and lands in the new pending list, every used page with a
nonzero count stays in (becomes) the new used list, and afterwards no page
with zero references remains in used. -/
theorem claim_C2 (a : LinearAllocator) :
    (a.FenceCommittedPages.m_usedPages
        = (a.m_usedPages.filter (fun p => !isReady p)).reverse)
    ∧ (a.FenceCommittedPages.m_pendingPages
        = ((a.m_usedPages.filter isReady).map fencePage).reverse ++ a.m_pendingPages)
    ∧ (∀ p ∈ a.m_usedPages, p.mRefCount = 0 →
        fencePage p ∈ a.FenceCommittedPages.m_pendingPages
        ∧ (fencePage p).mPendingFence > p.mPendingFence)
    ∧ (∀ p ∈ a.m_usedPages, p.mRefCount ≠ 0 → p ∈ a.FenceCommittedPages.m_usedPages)
    ∧ (∀ p ∈ a.FenceCommittedPages.m_usedPages, p.mRefCount ≠ 0 ∧ p ∈ a.m_usedPages) := by
  rw [FenceCommittedPages_eq]
  refine ⟨rfl, rfl, ?_, ?_, ?_⟩
  · intro p hp hz
    refine ⟨?_, Nat.lt_succ_self _⟩
    apply List.mem_append_left
    rw [List.mem_reverse]
    exact List.mem_map_of_mem _ (List.mem_filter.mpr ⟨hp, by simp [isReady, hz]⟩)
  · intro p hp hnz
    rw [List.mem_reverse]
    exact List.mem_filter.mpr ⟨hp, by simp [isReady, hnz]⟩
  · intro p hp
    rw [List.mem_reverse, List.mem_filter] at hp
    obtain ⟨hmem, hcond⟩ := hp
    refine ⟨?_, hmem⟩
    simp only [isReady, Bool.not_eq_true', beq_eq_false_iff_ne, ne_eq] at hcond
    exact hcond

/-- C9 counterexample: with two zero-reference pages in the used list in
order of identity 0 then 1, commit produces the pending list in order 1 then
0 — the relative order is reversed, not preserved as the claim states. -/
theorem claim_C9_counterexample :
    ids ((LinearAllocator.mk [] [newPage 0 65536, newPage 1 65536] [] 65536 2 0 2).m_usedPages.filter
        isReady) = [0, 1]
    ∧ ids (LinearAllocator.FenceCommittedPages
        (LinearAllocator.mk [] [newPage 0 65536, newPage 1 65536] [] 65536 2 0 2)).m_pendingPages
        = [1, 0]
    ∧ ids (LinearAllocator.FenceCommittedPages
        (LinearAllocator.mk [] [newPage 0 65536, newPage 1 65536] [] 65536 2 0 2)).m_pendingPages
        ≠ ids ((LinearAllocator.mk [] [newPage 0 65536, newPage 1 65536] [] 65536 2 0 2).m_usedPages.filter
        isReady) := by decide

/-- C9 (amended): within one commit call the ready pages are pushed onto the
ready chain one at a time while the used list is walked head to tail, so
they appear in the new pending list in reverse of their used-list order; each
page's new signal value is taken from that page's own counter (its previous
value plus one), independently of every other page. -/
theorem claim_C9 (a : LinearAllocator) :
    (a.FenceCommittedPages.m_pendingPages
        = ((a.m_usedPages.filter isReady).map fencePage).reverse ++ a.m_pendingPages)
    ∧ (∀ p ∈ a.m_usedPages.filter isReady,
        fencePage p ∈ a.FenceCommittedPages.m_pendingPages
        ∧ (fencePage p).mPendingFence = p.mPendingFence + 1) := by
  rw [FenceCommittedPages_eq]
  refine ⟨rfl, ?_⟩
  intro p hp
  refine ⟨?_, rfl⟩
  apply List.mem_append_left
  rw [List.mem_reverse]
  exact List.mem_map_of_mem _ hp

/-- C1: one `RetirePendingPages` call moves a pending page back to unused
(removed from pending, cursor reset to 0, pushed onto the head of unused)
exactly when the polled completed value of its fence has reached its
`mPendingFence`; pages whose value is not reached are kept in pending with
every field unchanged, and the used list is untouched. -/
theorem claim_C1 (a : LinearAllocator) (completed : Nat → Nat) (h : ArenaInv a) :
    ((a.RetirePendingPages completed).m_pendingPages
        = a.m_pendingPages.filter (fun p => !fencePassed completed p))
    ∧ ((a.RetirePendingPages completed).m_unusedPages
        = ((a.m_pendingPages.filter (fencePassed completed)).map resetPage).reverse
            ++ a.m_unusedPages)
    ∧ (∀ p ∈ a.m_pendingPages, completed p.mId < p.mPendingFence →
        p ∈ (a.RetirePendingPages completed).m_pendingPages)
    ∧ (∀ p ∈ a.m_pendingPages, p.mPendingFence ≤ completed p.mId →
        p ∉ (a.RetirePendingPages completed).m_pendingPages
        ∧ resetPage p ∈ (a.RetirePendingPages completed).m_unusedPages)
    ∧ ((a.RetirePendingPages completed).m_usedPages = a.m_usedPages) := by
  rw [RetirePendingPages_eq a completed h.pendingSeparated]
  refine ⟨rfl, rfl, ?_, ?_, rfl⟩
  · intro p hp hlt
    exact List.mem_filter.mpr ⟨hp, by
      simp only [fencePassed, Bool.not_eq_true', decide_eq_false_iff_not]
      omega⟩
  · intro p hp hle
    constructor
    · intro hmem
      have := (List.mem_filter.mp hmem).2
      simp only [fencePassed, Bool.not_eq_true', decide_eq_false_iff_not] at this
      omega
    · apply List.mem_append_left
      rw [List.mem_reverse]
      exact List.mem_map_of_mem _ (List.mem_filter.mpr ⟨hp, by
        simp only [fencePassed, decide_eq_true_eq]
        omega⟩)

theorem claim_C1_witness :
    ArenaInv (LinearAllocator.mk
      [⟨0, 1, 4096, 65536, 0⟩, ⟨1, 5, 100, 65536, 0⟩] [] [] 65536 2 2 2)
    ∧ ((LinearAllocator.RetirePendingPages (LinearAllocator.mk
          [⟨0, 1, 4096, 65536, 0⟩, ⟨1, 5, 100, 65536, 0⟩] [] [] 65536 2 2 2)
          (fun _ => 3)).m_pendingPages = [⟨1, 5, 100, 65536, 0⟩]
        ∧ (LinearAllocator.RetirePendingPages (LinearAllocator.mk
          [⟨0, 1, 4096, 65536, 0⟩, ⟨1, 5, 100, 65536, 0⟩] [] [] 65536 2 2 2)
          (fun _ => 3)).m_unusedPages = [⟨0, 1, 0, 65536, 0⟩]) := by
  refine ⟨by decide, ?_, ?_⟩
  · rw [(claim_C1 (LinearAllocator.mk
      [⟨0, 1, 4096, 65536, 0⟩, ⟨1, 5, 100, 65536, 0⟩] [] [] 65536 2 2 2)
      (fun _ => 3) (by decide)).1]
    rfl
  · rw [(claim_C1 (LinearAllocator.mk
      [⟨0, 1, 4096, 65536, 0⟩, ⟨1, 5, 100, 65536, 0⟩] [] [] 65536 2 2 2)
      (fun _ => 3) (by decide)).2.1]
    rfl

/-- C10: a page's `mPendingFence` starts at 0 when the page is created, is
bumped to a strictly positive value by the pre-increment in commit, and in
every reachable allocator state every page of the pending list carries a
nonzero `mPendingFence` — the assertion in `RetirePendingPages` holds. -/
theorem claim_C10 {a : LinearAllocator} {c d : Nat} (h : Reached a c d) :
    (∀ i inc : Nat, (newPage i inc).mPendingFence = 0)
    ∧ (∀ p : LinearAllocatorPage, (fencePage p).mPendingFence = p.mPendingFence + 1)
    ∧ (∀ p ∈ a.m_pendingPages, p.mPendingFence ≠ 0) := by
  refine ⟨fun i inc => rfl, fun p => rfl, ?_⟩
  obtain ⟨-, -, hfen, -, -⟩ := reached_inv h
  exact hfen

theorem claim_C10_witness :
    (⟨0, 1, 0, 65536, 0⟩ : LinearAllocatorPage).mPendingFence ≠ 0 :=
  (claim_C10 (Reached.step Op.commit (Reached.step (Op.findPage true 65536 0)
    (Reached.step (Op.newPage true) (Reached.init 65536))))).2.2
    ⟨0, 1, 0, 65536, 0⟩ (by decide)

/-- C8: in every reachable allocator state, the pages held by the three
lists number exactly the pages created minus the pages destroyed, and
`m_totalPages` records that same number. -/
theorem claim_C8 {a : LinearAllocator} {c d : Nat} (h : Reached a c d) :
    d ≤ c
    ∧ a.m_unusedPages.length + a.m_usedPages.length + a.m_pendingPages.length = c - d
    ∧ a.m_totalPages
        = a.m_unusedPages.length + a.m_usedPages.length + a.m_pendingPages.length := by
  obtain ⟨hinv, htot⟩ := reached_inv_total h
  obtain ⟨-, -, -, hlen, -⟩ := hinv
  omega

theorem claim_C8_witness :
    (applyOp Op.shrink (applyOp (Op.newPage true)
        (LinearAllocator.init 65536))).m_totalPages
      = (applyOp Op.shrink (applyOp (Op.newPage true)
        (LinearAllocator.init 65536))).m_unusedPages.length
        + (applyOp Op.shrink (applyOp (Op.newPage true)
        (LinearAllocator.init 65536))).m_usedPages.length
        + (applyOp Op.shrink (applyOp (Op.newPage true)
        (LinearAllocator.init 65536))).m_pendingPages.length :=
  (claim_C8 (Reached.step Op.shrink (Reached.step (Op.newPage true)
    (Reached.init 65536)))).2.2

theorem findFit_some {inc s al : Nat} :
    ∀ {l : List LinearAllocatorPage} {p : LinearAllocatorPage},
      findFit inc s al l = some p →
      ∃ pre post, l = pre ++ p :: post
        ∧ AlignOffset p.mOffset al + s ≤ inc
        ∧ ∀ q ∈ pre, ¬(AlignOffset q.mOffset al + s ≤ inc) := by
  intro l
  induction l with
  | nil =>
    intro p hres
    exact absurd hres (by simp [findFit])
  | cons q rest ih =>
    intro p hres
    unfold findFit at hres
    split at hres
    · rename_i hfit
      cases hres
      exact ⟨[], rest, rfl, hfit, fun r hr => absurd hr (List.not_mem_nil r)⟩
    · rename_i hnofit
      obtain ⟨pre, post, he, hfit, hall⟩ := ih hres
      refine ⟨q :: pre, post, by rw [he, List.cons_append], hfit, ?_⟩
      intro r hr
      rcases List.mem_cons.mp hr with hr | hr
      · subst hr; exact hnofit
      · exact hall r hr

theorem findFit_none {inc s al : Nat} :
    ∀ {l : List LinearAllocatorPage}, findFit inc s al l = none →
      ∀ p ∈ l, ¬(AlignOffset p.mOffset al + s ≤ inc) := by
  intro l
  induction l with
  | nil =>
    intro _ p hp
    exact absurd hp (List.not_mem_nil p)
  | cons q rest ih =>
    intro hres p hp
    unfold findFit at hres
    split at hres
    · exact absurd hres (by simp)
    · rename_i hnofit
      rcases List.mem_cons.mp hp with hp | hp
      · subst hp; exact hnofit
      · exact ih hres p hp

theorem cleanPage_success {a : LinearAllocator} {ok : Bool} (size alignment : Nat)
    (h : ArenaInv a) (hsz : size ≤ a.m_increment)
    (hgood : a.m_unusedPages ≠ [] ∨ ok = true) :
    ∃ p a1, a.GetCleanPageForAlloc ok = some (p, a1)
      ∧ AlignOffset p.mOffset alignment + size ≤ a.m_increment := by
  cases hu : a.m_unusedPages with
  | cons q rest =>
    refine ⟨q, _, GetCleanPageForAlloc_cons h hu ok, ?_⟩
    obtain ⟨-, hoff, -⟩ := h
    have hq0 : q.mOffset = 0 := hoff q (by rw [hu]; exact List.mem_cons_self _ _)
    rw [hq0, AlignOffset_zero_left]
    omega
  | nil =>
    have hok : ok = true := by
      rcases hgood with hg | hg
      · exact absurd hu hg
      · exact hg
    subst hok
    refine ⟨newPage a.m_nextId a.m_increment, _, GetCleanPageForAlloc_nil_ok h hu, ?_⟩
    rw [newPage_mOffset, AlignOffset_zero_left]
    omega

theorem GetPageForAlloc_success {a : LinearAllocator} {ok : Bool} {size alignment : Nat}
    (h : ArenaInv a) (hsz : size ≤ a.m_increment)
    (hgood : a.m_unusedPages ≠ [] ∨ ok = true
      ∨ (¬(size = a.m_increment ∧ (alignment = 0 ∨ alignment = a.m_increment))
          ∧ findFit a.m_increment size alignment a.m_usedPages ≠ none)) :
    ∃ p a1, a.GetPageForAlloc ok size alignment = some (p, a1)
      ∧ AlignOffset p.mOffset alignment + size ≤ a.m_increment := by
  unfold LinearAllocator.GetPageForAlloc
  by_cases hfast : size = a.m_increment ∧ (alignment = 0 ∨ alignment = a.m_increment)
  · rw [if_pos hfast]
    refine cleanPage_success size alignment h hsz ?_
    rcases hgood with hg | hg | hg
    · exact Or.inl hg
    · exact Or.inr hg
    · exact absurd hfast hg.1
  · rw [if_neg hfast]
    cases hfit : findFit a.m_increment size alignment a.m_usedPages with
    | some p =>
      refine ⟨p, a, rfl, ?_⟩
      obtain ⟨pre, post, -, hle, -⟩ := findFit_some hfit
      exact hle
    | none =>
      refine cleanPage_success size alignment h hsz ?_
      rcases hgood with hg | hg | hg
      · exact Or.inl hg
      · exact Or.inr hg
      · exact absurd hfit hg.2

/-- C4: page acquisition follows exactly the source's algorithm: a whole-page
request with compatible alignment takes a clean page directly; otherwise the
used list is scanned linearly and the first page whose aligned cursor leaves
room wins (first fit); if none fits a clean page is taken; and a clean page
is the head of unused (or a newly created page when unused is empty), moved
to the head of the used list. -/
theorem claim_C4 (a : LinearAllocator) (ok : Bool) (sizeBytes alignment : Nat)
    (h : ArenaInv a) :
    (sizeBytes = a.m_increment ∧ (alignment = 0 ∨ alignment = a.m_increment) →
      a.GetPageForAlloc ok sizeBytes alignment = a.GetCleanPageForAlloc ok)
    ∧ (¬(sizeBytes = a.m_increment ∧ (alignment = 0 ∨ alignment = a.m_increment)) →
        ∀ p, findFit a.m_increment sizeBytes alignment a.m_usedPages = some p →
          a.GetPageForAlloc ok sizeBytes alignment = some (p, a)
          ∧ ∃ pre post, a.m_usedPages = pre ++ p :: post
              ∧ AlignOffset p.mOffset alignment + sizeBytes ≤ a.m_increment
              ∧ ∀ q ∈ pre, ¬(AlignOffset q.mOffset alignment + sizeBytes ≤ a.m_increment))
    ∧ (¬(sizeBytes = a.m_increment ∧ (alignment = 0 ∨ alignment = a.m_increment)) →
        findFit a.m_increment sizeBytes alignment a.m_usedPages = none →
        a.GetPageForAlloc ok sizeBytes alignment = a.GetCleanPageForAlloc ok)
    ∧ (∀ q rest, a.m_unusedPages = q :: rest →
        a.GetCleanPageForAlloc ok
          = some (q, { a with m_unusedPages := rest, m_usedPages := q :: a.m_usedPages }))
    ∧ (a.m_unusedPages = [] → ok = true →
        a.GetCleanPageForAlloc ok
          = some (newPage a.m_nextId a.m_increment,
              { a with
                m_unusedPages := []
                m_usedPages := newPage a.m_nextId a.m_increment :: a.m_usedPages
                m_totalPages := a.m_totalPages + 1
                m_nextId := a.m_nextId + 1 }))
    ∧ (a.m_unusedPages = [] → ok = false → a.GetCleanPageForAlloc ok = none) := by
  refine ⟨?_, ?_, ?_, ?_, ?_, ?_⟩
  · intro hfast
    unfold LinearAllocator.GetPageForAlloc
    rw [if_pos hfast]
  · intro hslow p hfit
    constructor
    · unfold LinearAllocator.GetPageForAlloc
      rw [if_neg hslow, hfit]
    · exact findFit_some hfit
  · intro hslow hnone
    unfold LinearAllocator.GetPageForAlloc
    rw [if_neg hslow, hnone]
  · intro q rest hu
    exact GetCleanPageForAlloc_cons h hu ok
  · intro hu hok
    subst hok
    exact GetCleanPageForAlloc_nil_ok h hu
  · intro hu hok
    subst hok
    exact GetCleanPageForAlloc_nil_fail hu

theorem claim_C4_witness :
    ArenaInv (LinearAllocator.mk [] [⟨0, 0, 65000, 65536, 1⟩, ⟨1, 0, 100, 65536, 1⟩]
      [⟨2, 3, 0, 65536, 0⟩] 65536 3 1 3)
    ∧ LinearAllocator.GetPageForAlloc (LinearAllocator.mk []
        [⟨0, 0, 65000, 65536, 1⟩, ⟨1, 0, 100, 65536, 1⟩]
        [⟨2, 3, 0, 65536, 0⟩] 65536 3 1 3) true 4096 256
      = some (⟨1, 0, 100, 65536, 1⟩,
          LinearAllocator.mk [] [⟨0, 0, 65000, 65536, 1⟩, ⟨1, 0, 100, 65536, 1⟩]
            [⟨2, 3, 0, 65536, 0⟩] 65536 3 1 3) := by
  refine ⟨by decide, ?_⟩
  exact ((claim_C4 (LinearAllocator.mk []
      [⟨0, 0, 65000, 65536, 1⟩, ⟨1, 0, 100, 65536, 1⟩]
      [⟨2, 3, 0, 65536, 0⟩] 65536 3 1 3) true 4096 256 (by decide)).2.1
    (by decide) ⟨1, 0, 100, 65536, 1⟩ (by decide)).1

/-- C5: the public `FindPageForAlloc` fails with InvalidArgument when the
requested size is zero or the size or alignment exceeds the page size; it
fails with OutOfMemory when a clean page is needed, none is cached, and the
device backend fails to create one; in every other case it returns a page
whose aligned cursor leaves room for the request. -/
theorem claim_C5 (a : LinearAllocator) (ok : Bool) (size alignment : Nat)
    (h : ArenaInv a) :
    (size = 0 ∨ size > a.m_increment ∨ alignment > a.m_increment →
      a.FindPageForAlloc ok size alignment = .error .InvalidArgument)
    ∧ (size ≠ 0 → size ≤ a.m_increment → alignment ≤ a.m_increment →
        a.m_unusedPages = [] → ok = false →
        ((size = a.m_increment ∧ (alignment = 0 ∨ alignment = a.m_increment))
          ∨ findFit a.m_increment size alignment a.m_usedPages = none) →
        a.FindPageForAlloc ok size alignment = .error .OutOfMemory)
    ∧ (size ≠ 0 → size ≤ a.m_increment → alignment ≤ a.m_increment →
        (a.m_unusedPages ≠ [] ∨ ok = true
          ∨ (¬(size = a.m_increment ∧ (alignment = 0 ∨ alignment = a.m_increment))
              ∧ findFit a.m_increment size alignment a.m_usedPages ≠ none)) →
        ∃ p a1, a.FindPageForAlloc ok size alignment = .ok (p, a1)
          ∧ AlignOffset p.mOffset alignment + size ≤ a.m_increment) := by
  refine ⟨?_, ?_, ?_⟩
  · intro hbad
    unfold LinearAllocator.FindPageForAlloc
    by_cases h1 : size > a.m_increment
    · rw [if_pos h1]
    · rw [if_neg h1]
      by_cases h2 : alignment > a.m_increment
      · rw [if_pos h2]
      · rw [if_neg h2]
        have h3 : size = 0 := by
          rcases hbad with hb | hb | hb
          · exact hb
          · omega
          · omega
        rw [if_pos h3]
  · intro hs0 hsz hal hu hok hneed
    subst hok
    unfold LinearAllocator.FindPageForAlloc
    rw [if_neg (Nat.not_lt.mpr hsz), if_neg (Nat.not_lt.mpr hal), if_neg hs0]
    have hz : a.GetPageForAlloc false size alignment = none := by
      unfold LinearAllocator.GetPageForAlloc
      rcases hneed with hfast | hnone
      · rw [if_pos hfast, GetCleanPageForAlloc_nil_fail hu]
      · by_cases hfast : size = a.m_increment ∧ (alignment = 0 ∨ alignment = a.m_increment)
        · rw [if_pos hfast, GetCleanPageForAlloc_nil_fail hu]
        · rw [if_neg hfast, hnone, GetCleanPageForAlloc_nil_fail hu]
    rw [hz]
  · intro hs0 hsz hal hgood
    unfold LinearAllocator.FindPageForAlloc
    rw [if_neg (Nat.not_lt.mpr hsz), if_neg (Nat.not_lt.mpr hal), if_neg hs0]
    obtain ⟨p, a1, hres, hroom⟩ := GetPageForAlloc_success h hsz hgood
    rw [hres]
    exact ⟨p, a1, rfl, hroom⟩

theorem claim_C5_witness :
    (LinearAllocator.FindPageForAlloc (LinearAllocator.init 65536) true 65537 0
        = .error .InvalidArgument)
    ∧ (LinearAllocator.FindPageForAlloc (LinearAllocator.init 65536) true 0 0
        = .error .InvalidArgument)
    ∧ (LinearAllocator.FindPageForAlloc (LinearAllocator.init 65536) false 4096 256
        = .error .OutOfMemory)
    ∧ ∃ p a1, LinearAllocator.FindPageForAlloc (LinearAllocator.init 65536) true 4096 256
        = .ok (p, a1) ∧ AlignOffset p.mOffset 256 + 4096 ≤ 65536 := by
  refine ⟨?_, ?_, ?_, ?_⟩
  · exact (claim_C5 (LinearAllocator.init 65536) true 65537 0 (by decide)).1
      (Or.inr (Or.inl (by decide)))
  · exact (claim_C5 (LinearAllocator.init 65536) true 0 0 (by decide)).1
      (Or.inl rfl)
  · exact (claim_C5 (LinearAllocator.init 65536) false 4096 256 (by decide)).2.1
      (by decide) (by decide) (by decide) rfl rfl (Or.inr rfl)
  · exact (claim_C5 (LinearAllocator.init 65536) true 4096 256 (by decide)).2.2
      (by decide) (by decide) (by decide) (Or.inr (Or.inl rfl))

theorem drainLoop_pending_empty {polls : List (Nat → Nat)} {a a1 : LinearAllocator}
    (hd : drainLoop polls a = some a1) : a1.m_pendingPages = [] := by
  induction polls generalizing a with
  | nil =>
    unfold drainLoop at hd
    split at hd
    · rename_i he
      cases hd
      exact List.isEmpty_iff.mp he
    · exact absurd hd (by simp)
  | cons completed rest ih =>
    unfold drainLoop at hd
    split at hd
    · rename_i he
      cases hd
      exact List.isEmpty_iff.mp he
    · exact ih hd

theorem drainLoop_releases {polls : List (Nat → Nat)} {a a1 : LinearAllocator}
    (h : ArenaInv a) (hd : drainLoop polls a = some a1) :
    ∀ p ∈ a.m_pendingPages, ∃ completed ∈ polls, p.mPendingFence ≤ completed p.mId := by
  induction polls generalizing a with
  | nil =>
    intro p hp
    unfold drainLoop at hd
    split at hd
    · rename_i he
      rw [List.isEmpty_iff.mp he] at hp
      exact absurd hp (List.not_mem_nil p)
    · exact absurd hd (by simp)
  | cons completed rest ih =>
    intro p hp
    unfold drainLoop at hd
    split at hd
    · rename_i he
      rw [List.isEmpty_iff.mp he] at hp
      exact absurd hp (List.not_mem_nil p)
    · by_cases hf : fencePassed completed p
      · exact ⟨completed, List.mem_cons_self _ _, of_decide_eq_true hf⟩
      · have hp2 : p ∈ (a.RetirePendingPages completed).m_pendingPages := by
          rw [RetirePendingPages_eq a completed h.pendingSeparated]
          exact List.mem_filter.mpr ⟨hp, by simp [hf]⟩
        obtain ⟨c0, hc0, hle⟩ :=
          ih (inv_applyOp h (.retire completed)) hd p hp2
        exact ⟨c0, List.mem_cons_of_mem _ hc0, hle⟩

/-- C6: the destructor first loops retirement until the pending list is
empty, and only then frees the unused and used pages (all three lists end
empty); a page that was pending at destruction start is only freed after one
of the polls reported its fence value satisfied; and whatever pages remained
in used at drain time are freed regardless (the total-page counter drops by
both list lengths). -/
theorem claim_C6 (a : LinearAllocator) (polls : List (Nat → Nat)) (h : ArenaInv a) :
    (∀ final, a.destruct polls = some final →
      (∃ a1, drainLoop polls a = some a1
        ∧ a1.m_pendingPages = []
        ∧ final = { a1 with
            m_unusedPages := []
            m_usedPages := []
            m_pendingPages := []
            m_totalPages := a1.m_totalPages - a1.m_unusedPages.length
                - a1.m_usedPages.length
            m_increment := 0 })
      ∧ (∀ p ∈ a.m_pendingPages, ∃ completed ∈ polls,
          p.mPendingFence ≤ completed p.mId))
    ∧ (drainLoop polls a = none → a.destruct polls = none) := by
  constructor
  · intro final hfin
    unfold LinearAllocator.destruct at hfin
    cases hd : drainLoop polls a with
    | none =>
      rw [hd] at hfin
      exact absurd hfin (by simp)
    | some a1 =>
      rw [hd] at hfin
      refine ⟨⟨a1, rfl, drainLoop_pending_empty hd, ?_⟩, drainLoop_releases h hd⟩
      cases hfin
      rfl
  · intro hd
    unfold LinearAllocator.destruct
    rw [hd]

theorem claim_C6_witness :
    ArenaInv (LinearAllocator.mk [⟨0, 1, 4096, 65536, 0⟩] [] [] 65536 1 1 1)
    ∧ ∀ p ∈ (LinearAllocator.mk [⟨0, 1, 4096, 65536, 0⟩] [] [] 65536 1 1 1).m_pendingPages,
        ∃ completed ∈ ([fun _ => 0, fun _ => 3] : List (Nat → Nat)),
          p.mPendingFence ≤ completed p.mId :=
  ⟨by decide,
    ((claim_C6 (LinearAllocator.mk [⟨0, 1, 4096, 65536, 0⟩] [] [] 65536 1 1 1)
        [fun _ => 0, fun _ => 3] (by decide)).1
      (LinearAllocator.mk [] [] [] 0 0 0 1) rfl).2⟩

theorem mem_allPages {q : LinearAllocatorPage} {a : LinearAllocator} :
    q ∈ allPages a ↔
      q ∈ a.m_unusedPages ∨ q ∈ a.m_usedPages ∨ q ∈ a.m_pendingPages := by
  unfold allPages
  simp [List.mem_append, or_assoc]

theorem suballoc_mono (i s al : Nat) (p : LinearAllocatorPage) :
    p.mOffset ≤ ((fun p : LinearAllocatorPage =>
      if p.mId = i then
        match p.Suballocate s al with
        | .ok (_, p1) => p1
        | .error _ => p
      else p) p).mOffset := by
  dsimp only
  split
  · split
    · rename_i fst p1 heq
      simp only [LinearAllocatorPage.Suballocate] at heq
      split at heq
      · exact absurd heq (by simp)
      · obtain ⟨-, he2⟩ := Prod.mk.injEq _ _ _ _ ▸ Except.ok.injEq _ _ ▸ heq
        rw [← he2]
        calc p.mOffset ≤ AlignOffset p.mOffset al := AlignOffset_le _ _
        _ ≤ AlignOffset p.mOffset al + s := Nat.le_add_right _ _
    · exact Nat.le_refl _
  · exact Nat.le_refl _

theorem GetCleanPageForAlloc_cases {a a1 : LinearAllocator} {p : LinearAllocatorPage}
    {ok : Bool} (h : ArenaInv a) (hres : a.GetCleanPageForAlloc ok = some (p, a1)) :
    (∃ rest, a.m_unusedPages = p :: rest
      ∧ a1 = { a with m_unusedPages := rest, m_usedPages := p :: a.m_usedPages })
    ∨ (a.m_unusedPages = [] ∧ p = newPage a.m_nextId a.m_increment
      ∧ a1 = { a with
          m_unusedPages := []
          m_usedPages := newPage a.m_nextId a.m_increment :: a.m_usedPages
          m_totalPages := a.m_totalPages + 1
          m_nextId := a.m_nextId + 1 }) := by
  cases hu : a.m_unusedPages with
  | cons q rest =>
    rw [GetCleanPageForAlloc_cons h hu ok] at hres
    obtain ⟨he1, he2⟩ := Prod.mk.injEq _ _ _ _ ▸ Option.some.injEq _ _ ▸ hres
    subst he1
    left
    exact ⟨rest, rfl, he2.symm⟩
  | nil =>
    cases ok with
    | false =>
      rw [GetCleanPageForAlloc_nil_fail hu] at hres
      exact absurd hres (by simp)
    | true =>
      rw [GetCleanPageForAlloc_nil_ok h hu] at hres
      obtain ⟨he1, he2⟩ := Prod.mk.injEq _ _ _ _ ▸ Option.some.injEq _ _ ▸ hres
      right
      exact ⟨rfl, he1.symm, he2.symm⟩

theorem FindPageForAlloc_ok_cases {a a1 : LinearAllocator} {p : LinearAllocatorPage}
    {ok : Bool} {s al : Nat} (h : ArenaInv a)
    (hres : a.FindPageForAlloc ok s al = .ok (p, a1)) :
    a1 = a
    ∨ (∃ rest, a.m_unusedPages = p :: rest
        ∧ a1 = { a with m_unusedPages := rest, m_usedPages := p :: a.m_usedPages })
    ∨ (a.m_unusedPages = [] ∧ p = newPage a.m_nextId a.m_increment
        ∧ a1 = { a with
            m_unusedPages := []
            m_usedPages := newPage a.m_nextId a.m_increment :: a.m_usedPages
            m_totalPages := a.m_totalPages + 1
            m_nextId := a.m_nextId + 1 }) := by
  unfold LinearAllocator.FindPageForAlloc at hres
  split at hres
  · exact absurd hres (by simp)
  · split at hres
    · exact absurd hres (by simp)
    · split at hres
      · exact absurd hres (by simp)
      · split at hres
        · exact absurd hres (by simp)
        · rename_i page a2 heq
          obtain ⟨he1, he2⟩ := Prod.mk.injEq _ _ _ _ ▸ Except.ok.injEq _ _ ▸ hres
          subst he1
          rw [← he2]
          unfold LinearAllocator.GetPageForAlloc at heq
          split at heq
          · rcases GetCleanPageForAlloc_cases h heq with hc | hc
            · exact Or.inr (Or.inl hc)
            · exact Or.inr (Or.inr hc)
          · split at heq
            · rename_i q hfit
              obtain ⟨-, hq2⟩ := Prod.mk.injEq _ _ _ _ ▸ Option.some.injEq _ _ ▸ heq
              exact Or.inl hq2.symm
            · rcases GetCleanPageForAlloc_cases h heq with hc | hc
              · exact Or.inr (Or.inl hc)
              · exact Or.inr (Or.inr hc)

theorem step_used_cases {a : LinearAllocator} (h : ArenaInv a) (op : Op) :
    ∀ q ∈ (applyOp op a).m_usedPages,
      (∃ r ∈ a.m_usedPages, q.mId = r.mId ∧ r.mOffset ≤ q.mOffset)
      ∨ (q.mOffset = 0 ∧ (q ∈ a.m_unusedPages
          ∨ (q.mId = a.m_nextId ∧ ∀ r ∈ allPages a, r.mId ≠ q.mId))) := by
  have hfresh : ∀ r ∈ allPages a, r.mId ≠ a.m_nextId := by
    intro r hr
    obtain ⟨-, -, -, -, hb⟩ := h
    exact Nat.ne_of_lt (hb r hr)
  cases op with
  | newPage ok =>
    intro q hq
    have hq2 : q ∈ a.m_usedPages := by
      cases ok with
      | true => exact hq
      | false => exact hq
    exact Or.inl ⟨q, hq2, rfl, Nat.le_refl _⟩
  | shrink =>
    intro q hq
    exact Or.inl ⟨q, hq, rfl, Nat.le_refl _⟩
  | retire completed =>
    intro q hq
    rw [show applyOp (Op.retire completed) a = a.RetirePendingPages completed from rfl,
      RetirePendingPages_eq a completed h.pendingSeparated] at hq
    exact Or.inl ⟨q, hq, rfl, Nat.le_refl _⟩
  | commit =>
    intro q hq
    rw [show applyOp Op.commit a = a.FenceCommittedPages from rfl,
      FenceCommittedPages_eq] at hq
    have hq2 : q ∈ (a.m_usedPages.filter (fun p => !isReady p)).reverse := hq
    rw [List.mem_reverse] at hq2
    exact Or.inl ⟨q, (List.filter_sublist _).mem hq2, rfl, Nat.le_refl _⟩
  | suballoc i s al =>
    intro q hq
    have hq2 : q ∈ a.m_usedPages.map (fun p =>
      if p.mId = i then
        match p.Suballocate s al with
        | .ok (_, p1) => p1
        | .error _ => p
      else p) := hq
    obtain ⟨r, hr, hre⟩ := List.mem_map.mp hq2
    refine Or.inl ⟨r, hr, ?_, ?_⟩
    · rw [← hre]
      exact suballoc_preserves_mId i s al r
    · rw [← hre]
      exact suballoc_mono i s al r
  | addRef i =>
    intro q hq
    have hq2 : q ∈ a.m_usedPages.map (fun p =>
      if p.mId = i then { p with mRefCount := p.mRefCount + 1 } else p) := hq
    obtain ⟨r, hr, hre⟩ := List.mem_map.mp hq2
    refine Or.inl ⟨r, hr, ?_, ?_⟩
    · rw [← hre]; by_cases hc : r.mId = i <;> simp [hc]
    · rw [← hre]; by_cases hc : r.mId = i <;> simp [hc]
  | release i =>
    intro q hq
    have hq2 : q ∈ a.m_usedPages.map (fun p =>
      if p.mId = i then { p with mRefCount := p.mRefCount - 1 } else p) := hq
    obtain ⟨r, hr, hre⟩ := List.mem_map.mp hq2
    refine Or.inl ⟨r, hr, ?_, ?_⟩
    · rw [← hre]; by_cases hc : r.mId = i <;> simp [hc]
    · rw [← hre]; by_cases hc : r.mId = i <;> simp [hc]
  | findPage ok s al =>
    intro q hq
    cases hres : a.FindPageForAlloc ok s al with
    | error e =>
      have ha : applyOp (.findPage ok s al) a = a := by
        simp [applyOp, hres]
      rw [ha] at hq
      exact Or.inl ⟨q, hq, rfl, Nat.le_refl _⟩
    | ok v =>
      obtain ⟨p, a1⟩ := v
      have ha : applyOp (.findPage ok s al) a = a1 := by
        simp [applyOp, hres]
      rw [ha] at hq
      rcases FindPageForAlloc_ok_cases h hres with hc | ⟨rest, hu, hc⟩ | ⟨hu, hp, hc⟩
      · subst hc
        exact Or.inl ⟨q, hq, rfl, Nat.le_refl _⟩
      · subst hc
        have hq2 : q ∈ p :: a.m_usedPages := hq
        rcases List.mem_cons.mp hq2 with hq3 | hq3
        · subst hq3
          right
          obtain ⟨-, hoff, -⟩ := h
          exact ⟨hoff q (by rw [hu]; exact List.mem_cons_self _ _),
            Or.inl (by rw [hu]; exact List.mem_cons_self _ _)⟩
        · exact Or.inl ⟨q, hq3, rfl, Nat.le_refl _⟩
      · subst hc
        subst hp
        have hq2 : q ∈ newPage a.m_nextId a.m_increment :: a.m_usedPages := hq
        rcases List.mem_cons.mp hq2 with hq3 | hq3
        · subst hq3
          exact Or.inr ⟨rfl, Or.inr ⟨rfl, hfresh⟩⟩
        · exact Or.inl ⟨q, hq3, rfl, Nat.le_refl _⟩

theorem step_cases {a : LinearAllocator} (h : ArenaInv a) (op : Op) :
    ∀ q ∈ allPages (applyOp op a),
      (q.mOffset = 0 ∧ q.mId = a.m_nextId ∧ (∀ r ∈ allPages a, r.mId ≠ q.mId))
      ∨ (∃ r ∈ allPages a, q.mId = r.mId ∧ r.mOffset ≤ q.mOffset)
      ∨ (∃ r ∈ a.m_pendingPages, q.mId = r.mId ∧ q = resetPage r
          ∧ q ∈ (applyOp op a).m_unusedPages) := by
  have hfresh : ∀ r ∈ allPages a, r.mId ≠ a.m_nextId := by
    intro r hr
    obtain ⟨-, -, -, -, hb⟩ := h
    exact Nat.ne_of_lt (hb r hr)
  have hself : ∀ q ∈ allPages a,
      (q.mOffset = 0 ∧ q.mId = a.m_nextId ∧ (∀ r ∈ allPages a, r.mId ≠ q.mId))
      ∨ (∃ r ∈ allPages a, q.mId = r.mId ∧ r.mOffset ≤ q.mOffset)
      ∨ (∃ r ∈ a.m_pendingPages, q.mId = r.mId ∧ q = resetPage r
          ∧ q ∈ (applyOp op a).m_unusedPages) :=
    fun q hq => Or.inr (Or.inl ⟨q, hq, rfl, Nat.le_refl _⟩)
  cases op with
  | newPage ok =>
    cases ok with
    | false =>
      intro q hq
      exact hself q hq
    | true =>
      intro q hq
      rcases mem_allPages.mp hq with hq3 | hq3 | hq3
      · have hq4 : q ∈ newPage a.m_nextId a.m_increment :: a.m_unusedPages := hq3
        rcases List.mem_cons.mp hq4 with hq5 | hq5
        · subst hq5
          exact Or.inl ⟨rfl, rfl, hfresh⟩
        · exact hself q (mem_allPages.mpr (Or.inl hq5))
      · exact hself q (mem_allPages.mpr (Or.inr (Or.inl hq3)))
      · exact hself q (mem_allPages.mpr (Or.inr (Or.inr hq3)))
  | shrink =>
    intro q hq
    rcases mem_allPages.mp hq with hq3 | hq3 | hq3
    · exact absurd (hq3 : q ∈ ([] : List LinearAllocatorPage)) (List.not_mem_nil q)
    · exact hself q (mem_allPages.mpr (Or.inr (Or.inl hq3)))
    · exact hself q (mem_allPages.mpr (Or.inr (Or.inr hq3)))
  | addRef i =>
    intro q hq
    rcases mem_allPages.mp hq with hq3 | hq3 | hq3
    · exact hself q (mem_allPages.mpr (Or.inl hq3))
    · have hq4 : q ∈ a.m_usedPages.map (fun p =>
        if p.mId = i then { p with mRefCount := p.mRefCount + 1 } else p) := hq3
      obtain ⟨r, hr, hre⟩ := List.mem_map.mp hq4
      refine Or.inr (Or.inl ⟨r, mem_allPages.mpr (Or.inr (Or.inl hr)), ?_, ?_⟩)
      · rw [← hre]; by_cases hc : r.mId = i <;> simp [hc]
      · rw [← hre]; by_cases hc : r.mId = i <;> simp [hc]
    · exact hself q (mem_allPages.mpr (Or.inr (Or.inr hq3)))
  | release i =>
    intro q hq
    rcases mem_allPages.mp hq with hq3 | hq3 | hq3
    · exact hself q (mem_allPages.mpr (Or.inl hq3))
    · have hq4 : q ∈ a.m_usedPages.map (fun p =>
        if p.mId = i then { p with mRefCount := p.mRefCount - 1 } else p) := hq3
      obtain ⟨r, hr, hre⟩ := List.mem_map.mp hq4
      refine Or.inr (Or.inl ⟨r, mem_allPages.mpr (Or.inr (Or.inl hr)), ?_, ?_⟩)
      · rw [← hre]; by_cases hc : r.mId = i <;> simp [hc]
      · rw [← hre]; by_cases hc : r.mId = i <;> simp [hc]
    · exact hself q (mem_allPages.mpr (Or.inr (Or.inr hq3)))
  | suballoc i s al =>
    intro q hq
    rcases mem_allPages.mp hq with hq3 | hq3 | hq3
    · exact hself q (mem_allPages.mpr (Or.inl hq3))
    · have hq4 : q ∈ a.m_usedPages.map (fun p =>
        if p.mId = i then
          match p.Suballocate s al with
          | .ok (_, p1) => p1
          | .error _ => p
        else p) := hq3
      obtain ⟨r, hr, hre⟩ := List.mem_map.mp hq4
      refine Or.inr (Or.inl ⟨r, mem_allPages.mpr (Or.inr (Or.inl hr)), ?_, ?_⟩)
      · rw [← hre]
        exact suballoc_preserves_mId i s al r
      · rw [← hre]
        exact suballoc_mono i s al r
    · exact hself q (mem_allPages.mpr (Or.inr (Or.inr hq3)))
  | commit =>
    intro q hq
    rw [show applyOp Op.commit a = a.FenceCommittedPages from rfl,
      FenceCommittedPages_eq] at hq
    rcases mem_allPages.mp hq with hq3 | hq3 | hq3
    · exact hself q (mem_allPages.mpr (Or.inl hq3))
    · have hq4 : q ∈ (a.m_usedPages.filter (fun p => !isReady p)).reverse := hq3
      rw [List.mem_reverse] at hq4
      exact hself q (mem_allPages.mpr (Or.inr (Or.inl ((List.filter_sublist _).mem hq4))))
    · have hq4 : q ∈ ((a.m_usedPages.filter isReady).map fencePage).reverse
          ++ a.m_pendingPages := hq3
      rcases List.mem_append.mp hq4 with hq5 | hq5
      · rw [List.mem_reverse] at hq5
        obtain ⟨r, hr, hre⟩ := List.mem_map.mp hq5
        refine Or.inr (Or.inl ⟨r,
          mem_allPages.mpr (Or.inr (Or.inl ((List.filter_sublist _).mem hr))), ?_, ?_⟩)
        · rw [← hre, fencePage_mId]
        · rw [← hre]
          exact Nat.le_refl _
      · exact hself q (mem_allPages.mpr (Or.inr (Or.inr hq5)))
  | retire completed =>
    intro q hq
    rw [show applyOp (Op.retire completed) a = a.RetirePendingPages completed from rfl,
      RetirePendingPages_eq a completed h.pendingSeparated] at hq
    rcases mem_allPages.mp hq with hq3 | hq3 | hq3
    · have hq4 : q ∈ ((a.m_pendingPages.filter (fencePassed completed)).map
          resetPage).reverse ++ a.m_unusedPages := hq3
      rcases List.mem_append.mp hq4 with hq5 | hq5
      · rw [List.mem_reverse] at hq5
        obtain ⟨r, hr, hre⟩ := List.mem_map.mp hq5
        refine Or.inr (Or.inr ⟨r, (List.filter_sublist _).mem hr, ?_, hre.symm, ?_⟩)
        · rw [← hre, resetPage_mId]
        · rw [show applyOp (Op.retire completed) a = a.RetirePendingPages completed from rfl,
            RetirePendingPages_eq a completed h.pendingSeparated]
          exact List.mem_append_left _ (List.mem_reverse.mpr
            (hre ▸ List.mem_map_of_mem resetPage hr))
      · exact hself q (mem_allPages.mpr (Or.inl hq5))
    · exact hself q (mem_allPages.mpr (Or.inr (Or.inl hq3)))
    · have hq4 : q ∈ a.m_pendingPages.filter (fun p => !fencePassed completed p) := hq3
      exact hself q (mem_allPages.mpr (Or.inr (Or.inr ((List.filter_sublist _).mem hq4))))
  | findPage ok s al =>
    intro q hq
    cases hres : a.FindPageForAlloc ok s al with
    | error e =>
      have ha : applyOp (.findPage ok s al) a = a := by
        simp [applyOp, hres]
      rw [ha] at hq
      exact hself q hq
    | ok v =>
      obtain ⟨p, a1⟩ := v
      have ha : applyOp (.findPage ok s al) a = a1 := by
        simp [applyOp, hres]
      rw [ha] at hq
      rcases FindPageForAlloc_ok_cases h hres with hc | ⟨rest, hu, hc⟩ | ⟨hu, hp, hc⟩
      · subst hc
        exact hself q hq
      · subst hc
        rcases mem_allPages.mp hq with hq3 | hq3 | hq3
        · have hq4 : q ∈ rest := hq3
          exact hself q (mem_allPages.mpr (Or.inl (by
            rw [hu]; exact List.mem_cons_of_mem _ hq4)))
        · have hq4 : q ∈ p :: a.m_usedPages := hq3
          rcases List.mem_cons.mp hq4 with hq5 | hq5
          · subst hq5
            exact hself q (mem_allPages.mpr (Or.inl (by
              rw [hu]; exact List.mem_cons_self _ _)))
          · exact hself q (mem_allPages.mpr (Or.inr (Or.inl hq5)))
        · exact hself q (mem_allPages.mpr (Or.inr (Or.inr hq3)))
      · subst hc
        subst hp
        rcases mem_allPages.mp hq with hq3 | hq3 | hq3
        · exact absurd (hq3 : q ∈ ([] : List LinearAllocatorPage)) (List.not_mem_nil q)
        · have hq4 : q ∈ newPage a.m_nextId a.m_increment :: a.m_usedPages := hq3
          rcases List.mem_cons.mp hq4 with hq5 | hq5
          · subst hq5
            exact Or.inl ⟨rfl, rfl, hfresh⟩
          · exact hself q (mem_allPages.mpr (Or.inr (Or.inl hq5)))
        · exact hself q (mem_allPages.mpr (Or.inr (Or.inr hq3)))

/-- C7: across any single operation from a reachable state, a page that
moves from unused into used has cursor exactly 0 at that transition; the
cursor of a page that stays in used never decreases; and a cursor is ever
reset to 0 only on a page that (re)enters the unused list at that step. -/
theorem claim_C7 {a : LinearAllocator} {c d : Nat} (h : Reached a c d) (op : Op) :
    (∀ q ∈ (applyOp op a).m_usedPages, q.mId ∈ ids a.m_unusedPages → q.mOffset = 0)
    ∧ (∀ p ∈ a.m_usedPages, ∀ q ∈ (applyOp op a).m_usedPages,
        q.mId = p.mId → p.mOffset ≤ q.mOffset)
    ∧ (∀ p ∈ allPages a, ∀ q ∈ allPages (applyOp op a),
        q.mId = p.mId → q.mOffset < p.mOffset →
        q.mOffset = 0 ∧ q ∈ (applyOp op a).m_unusedPages) := by
  have hinv := reached_inv h
  have husedc := step_used_cases hinv op
  have hallc := step_cases hinv op
  have hnodall : (ids (allPages a)).Nodup := hinv.1
  have hinv2 := hinv
  rw [arenaInv_iff] at hinv2
  obtain ⟨⟨h1, h2, h3, h4, h5, h6⟩, hoff, hfen, hlen, hb1, hb2, hb3⟩ := hinv2
  refine ⟨?_, ?_, ?_⟩
  · intro q hq hqid
    rcases husedc q hq with ⟨r, hr, hid, -⟩ | ⟨h0, -⟩
    · exact absurd (hid.symm ▸ mem_ids_of_mem hr) (h4 q.mId hqid)
    · exact h0
  · intro p hp q hq hid
    rcases husedc q hq with ⟨r, hr, hid2, hle⟩ | ⟨h0, hcase⟩
    · have hrp : r = p := eq_of_mem_ids_nodup h2 hr hp (by rw [← hid2]; exact hid)
      rw [← hrp]
      exact hle
    · rcases hcase with hmem | ⟨hnid, hfreshq⟩
      · exact absurd (hid.symm ▸ mem_ids_of_mem hp)
          (h4 q.mId (mem_ids_of_mem hmem))
      · exact absurd hid.symm (hfreshq p (mem_allPages.mpr (Or.inr (Or.inl hp))))
  · intro p hp q hq hid hlt
    rcases hallc q hq with ⟨h0, hnid, hfreshq⟩ | ⟨r, hr, hid2, hle⟩ | ⟨r, hr, hid2, hqr, hmem⟩
    · exact absurd hid.symm (hfreshq p hp)
    · have hrp : r = p := eq_of_mem_ids_nodup hnodall hr hp (by rw [← hid2]; exact hid)
      rw [hrp] at hle
      exact absurd hlt (Nat.not_lt.mpr hle)
    · refine ⟨by rw [hqr]; rfl, hmem⟩

theorem claim_C7_witness :
    (newPage 0 65536).mOffset = 0 :=
  (claim_C7 (Reached.step (Op.newPage true) (Reached.init 65536))
    (Op.findPage true 4096 256)).1 (newPage 0 65536) (by decide) (by decide)

theorem claim_C2_witness :
    (LinearAllocator.FenceCommittedPages (LinearAllocator.mk []
        [⟨0, 0, 10, 65536, 0⟩, ⟨1, 0, 20, 65536, 2⟩] [] 65536 2 0 2)).m_usedPages
      = [⟨1, 0, 20, 65536, 2⟩]
    ∧ fencePage ⟨0, 0, 10, 65536, 0⟩ ∈ (LinearAllocator.FenceCommittedPages
        (LinearAllocator.mk [] [⟨0, 0, 10, 65536, 0⟩, ⟨1, 0, 20, 65536, 2⟩]
          [] 65536 2 0 2)).m_pendingPages := by
  constructor
  · rw [(claim_C2 (LinearAllocator.mk []
      [⟨0, 0, 10, 65536, 0⟩, ⟨1, 0, 20, 65536, 2⟩] [] 65536 2 0 2)).1]
    rfl
  · exact ((claim_C2 (LinearAllocator.mk []
      [⟨0, 0, 10, 65536, 0⟩, ⟨1, 0, 20, 65536, 2⟩] [] 65536 2 0 2)).2.2.1
      ⟨0, 0, 10, 65536, 0⟩ (by decide) rfl).1

theorem claim_C9_witness :
    fencePage (newPage 0 65536) ∈ (LinearAllocator.FenceCommittedPages
      (LinearAllocator.mk [] [newPage 0 65536, newPage 1 65536]
        [] 65536 2 0 2)).m_pendingPages :=
  ((claim_C9 (LinearAllocator.mk [] [newPage 0 65536, newPage 1 65536]
      [] 65536 2 0 2)).2 (newPage 0 65536) (by decide)).1
